import Mathlib

/-!
Verification of the DiskViz core algorithms (scanner, treemap layout, search
filter) against their natural-language specification.

The development shallowly embeds the Python sources:
  * `src/diskviz/model.py`   — `DiskNode` and `iter_all`;
  * `src/diskviz/scanner.py` — `ScanStats`, `_safe_stat`, `scan_directory`,
    `_scan_node` (with the filesystem abstracted as an inductive `FS` value);
  * `src/diskviz/treemap.py` — `Rect`, `NodeRect`, `slice_and_dice`,
    `_squarify_children`, `_squarify`, `_layout_simple`, `_layout_row`,
    `_worst_ratio`, `filter_layout`.

Machine conventions: byte sizes and nanosecond timestamps are `Nat`
(Python ints are unbounded; `st_size ≥ 0`); geometry is `Rat` (Python floats,
whose rounding plays no role in any ordering/membership/termination claim
proved here); the wall clock used by `_safe_stat` on failure is an explicit
`now` parameter.
-/

/-! ## Filesystem model

A value of `FS` describes what the OS calls in `_scan_node` observe for one
path: `file` is a path with `is_symlink() = False`, `is_dir() = False`;
`missing` is a nonexistent path (both predicates false, `stat` raises);
`symlink` is a path with `is_symlink() = True` whose resolved target is `tgt`;
`dir` is a path with `is_dir() = True` whose `os.scandir` either yields
`entries` (in the order the scanner's sorted enumeration produces them) or
raises.  A `stat` field of `none` means `Path.stat()` raises, so `_safe_stat`
falls back to `(0, now)`.  `stat()` follows symlinks, hence `statOf` chains
through `symlink`.
-/

inductive ListErr where
  | permDenied
  | ioErr
deriving DecidableEq

mutual
inductive FS where
  | file (name : String) (st : Option (Nat × Nat))
  | missing (name : String)
  | symlink (name : String) (tgt : FS)
  | dir (name : String) (st : Option (Nat × Nat)) (listing : Listing)
inductive Listing where
  | ok (entries : List FS)
  | err (e : ListErr)
end

/-- Name of the entry, as `os.DirEntry.name` / the final path component. -/
def FS.name : FS → String
  | .file n _ => n
  | .missing n => n
  | .symlink n _ => n
  | .dir n _ _ => n

/-- Result of `path.stat()` (follows symlinks), `none` when it raises. -/
def statOf : FS → Option (Nat × Nat)
  | .file _ st => st
  | .missing _ => none
  | .symlink _ tgt => statOf tgt
  | .dir _ st _ => st

/-- Embedding of `_safe_stat`: `(st_size, st_mtime_ns)` on success,
`(0, time_ns())` on any failure. -/
def safe_stat (st : Option (Nat × Nat)) (now : Nat) : Nat × Nat :=
  match st with
  | some p => p
  | none => (0, now)

/-! ## Data model (`model.py`) -/

/-- Embedding of `DiskNode` (dataclass: path, size, is_dir, modified_ns,
children). -/
inductive DiskNode where
  | mk (path : String) (size : Nat) (is_dir : Bool) (modified_ns : Nat)
      (children : List DiskNode)

def DiskNode.path : DiskNode → String
  | .mk p _ _ _ _ => p

def DiskNode.size : DiskNode → Nat
  | .mk _ s _ _ _ => s

def DiskNode.is_dir : DiskNode → Bool
  | .mk _ _ d _ _ => d

def DiskNode.modified_ns : DiskNode → Nat
  | .mk _ _ _ m _ => m

def DiskNode.children : DiskNode → List DiskNode
  | .mk _ _ _ _ cs => cs

mutual
def DiskNode.beq : DiskNode → DiskNode → Bool
  | .mk p s d m cs, .mk p' s' d' m' cs' =>
      p == p' && s == s' && d == d' && m == m' && beqKids cs cs'
def beqKids : List DiskNode → List DiskNode → Bool
  | [], [] => true
  | c :: cs, c' :: cs' => DiskNode.beq c c' && beqKids cs cs'
  | _, _ => false
end

mutual
theorem DiskNode.beq_iff : ∀ a b : DiskNode, DiskNode.beq a b = true ↔ a = b
  | .mk p s d m cs, .mk p' s' d' m' cs' => by
    simp only [DiskNode.beq, Bool.and_eq_true, beq_iff_eq, DiskNode.mk.injEq]
    constructor
    · rintro ⟨⟨⟨⟨h1, h2⟩, h3⟩, h4⟩, h5⟩
      exact ⟨h1, h2, h3, h4, (beqKids_iff cs cs').mp h5⟩
    · rintro ⟨h1, h2, h3, h4, h5⟩
      exact ⟨⟨⟨⟨h1, h2⟩, h3⟩, h4⟩, (beqKids_iff cs cs').mpr h5⟩
theorem beqKids_iff : ∀ a b : List DiskNode, beqKids a b = true ↔ a = b
  | [], [] => by simp [beqKids]
  | [], _ :: _ => by simp [beqKids]
  | _ :: _, [] => by simp [beqKids]
  | c :: cs, c' :: cs' => by
    simp only [beqKids, Bool.and_eq_true, List.cons.injEq]
    rw [DiskNode.beq_iff c c', beqKids_iff cs cs']
end

instance : DecidableEq DiskNode := fun a b =>
  decidable_of_iff (DiskNode.beq a b = true) (DiskNode.beq_iff a b)

/-! Embedding of `DiskNode.iter_all`: this node and all descendants,
pre-order. -/
mutual
def DiskNode.iter_all : DiskNode → List DiskNode
  | .mk p s d m cs => .mk p s d m cs :: iterAllKids cs
def iterAllKids : List DiskNode → List DiskNode
  | [] => []
  | c :: cs => c.iter_all ++ iterAllKids cs
end

theorem mem_iterAllKids {x : DiskNode} {cs : List DiskNode} :
    x ∈ iterAllKids cs ↔ ∃ c ∈ cs, x ∈ c.iter_all := by
  induction cs with
  | nil => simp [iterAllKids]
  | cons c cs ih => simp [iterAllKids, ih]

theorem self_mem_iter_all (n : DiskNode) : n ∈ n.iter_all := by
  match n with
  | .mk p s d m cs => simp [DiskNode.iter_all]

theorem mem_iter_all_iff {x : DiskNode} {n : DiskNode} :
    x ∈ n.iter_all ↔ x = n ∨ ∃ c ∈ n.children, x ∈ c.iter_all := by
  match n with
  | .mk p s d m cs =>
    simp [DiskNode.iter_all, mem_iterAllKids, DiskNode.children]

/-! ## Scanner (`scanner.py`) -/

/-- Fixed ignore set `IGNORED_NAMES`. -/
def IGNORED_NAMES : List String :=
  ["$Recycle.Bin", "System Volume Information", "proc", "sys", "dev"]

/-- Embedding of `ScanStats`. -/
structure ScanStats where
  files_scanned : Nat
  dirs_scanned : Nat
  permission_denied : List String
  errors : List String
deriving DecidableEq

def emptyStats : ScanStats := ⟨0, 0, [], []⟩

/-- Stable descending insertion by `size`: inserts `c` before the first
element whose size is not larger, so a tie keeps `c` (the earlier element)
first.  Together with `sortBySize` this is the unique stable sort by
descending size, i.e. Python's `children.sort(key=size, reverse=True)`. -/
def insertBySize (c : DiskNode) : List DiskNode → List DiskNode
  | [] => [c]
  | d :: ds => if c.size < d.size then d :: insertBySize c ds else c :: d :: ds

/-- Stable sort by descending `size` (see `insertBySize`). -/
def sortBySize : List DiskNode → List DiskNode
  | [] => []
  | c :: cs => insertBySize c (sortBySize cs)

/-! Embedding of `_scan_node` and its `for entry in entries:` loop.
`_scan_node` first handles the `not follow_symlinks and path.is_symlink()`
leaf case; in every other case the remaining `stat`/`is_dir` observations
follow symlinks, so when `follow = true` a symlink behaves exactly as its
resolved target at the symlink's own path — embedded as recursion into
`tgt` (`scan_node` with `follow = true` performs no symlink check first).
`scan_entries` skips `IGNORED_NAMES` and accumulates
(size sum, mtime max, children, stats), exactly like the Python loop. -/
mutual
def scan_node (now : Nat) (follow : Bool) (maxDepth : Nat) :
    FS → String → Nat → ScanStats → DiskNode × ScanStats
  | .symlink _ tgt, path, depth, stats =>
      if follow then
        scan_node now follow maxDepth tgt path depth stats
      else
        let sm := safe_stat (statOf tgt) now
        (.mk path sm.1 false sm.2 [],
         { stats with files_scanned := stats.files_scanned + 1 })
  | .dir _ st listing, path, depth, stats =>
      let collected :=
        if depth < maxDepth then
          match listing with
          | .ok entries => scan_entries now follow maxDepth entries path depth stats
          | .err .permDenied =>
              (0, 0, [],
               { stats with permission_denied := stats.permission_denied ++ [path] })
          | .err .ioErr =>
              (0, 0, [], { stats with errors := stats.errors ++ [path] })
        else
          let sm := safe_stat st now
          (sm.1, sm.2, [], stats)
      let dsm := safe_stat st now
      (.mk path (max collected.1 dsm.1) true (max collected.2.1 dsm.2)
          (sortBySize collected.2.2.1),
       { collected.2.2.2 with dirs_scanned := collected.2.2.2.dirs_scanned + 1 })
  | .file _ st, path, _, stats =>
      let sm := safe_stat st now
      (.mk path sm.1 false sm.2 [],
       { stats with files_scanned := stats.files_scanned + 1 })
  | .missing _, path, _, stats =>
      let sm := safe_stat none now
      (.mk path sm.1 false sm.2 [],
       { stats with files_scanned := stats.files_scanned + 1 })

def scan_entries (now : Nat) (follow : Bool) (maxDepth : Nat) :
    List FS → String → Nat → ScanStats → Nat × Nat × List DiskNode × ScanStats
  | [], _, _, stats => (0, 0, [], stats)
  | e :: rest, path, depth, stats =>
      if e.name ∈ IGNORED_NAMES then
        scan_entries now follow maxDepth rest path depth stats
      else
        let cr := scan_node now follow maxDepth e (path ++ "/" ++ e.name) (depth + 1) stats
        let rr := scan_entries now follow maxDepth rest path depth cr.2
        (cr.1.size + rr.1, max cr.1.modified_ns rr.2.1, cr.1 :: rr.2.2.1, rr.2.2.2)
end

/-- Embedding of `scan_directory`: fresh statistics, scan from depth 0.  The
`rootPath` string stands for the already-resolved absolute root; `fs`
describes what the filesystem presents at that path.  Note the function is
total: the Python code has no error path after `resolve()` (which is
non-strict and does not raise for nonexistent paths). -/
def scan_directory (now : Nat) (follow : Bool) (maxDepth : Nat) (fs : FS)
    (rootPath : String) : DiskNode × ScanStats :=
  scan_node now follow maxDepth fs rootPath 0 emptyStats

/-! ## Aggregates used to state the scanner claims -/

def childSizeSum (cs : List DiskNode) : Nat := (cs.map DiskNode.size).sum

def natMaxList (l : List Nat) : Nat := l.foldr max 0

def childMtimeMax (cs : List DiskNode) : Nat := natMaxList (cs.map DiskNode.modified_ns)

mutual
def countDirs : DiskNode → Nat
  | .mk _ _ d _ cs => (if d then 1 else 0) + countDirsKids cs
def countDirsKids : List DiskNode → Nat
  | [] => 0
  | c :: cs => countDirs c + countDirsKids cs
end

mutual
def countFiles : DiskNode → Nat
  | .mk _ _ d _ cs => (if d then 0 else 1) + countFilesKids cs
def countFilesKids : List DiskNode → Nat
  | [] => 0
  | c :: cs => countFiles c + countFilesKids cs
end

/-! ## Properties of the stable descending sort -/

theorem mem_insertBySize {c x : DiskNode} {l : List DiskNode} :
    x ∈ insertBySize c l ↔ x = c ∨ x ∈ l := by
  induction l with
  | nil => simp [insertBySize]
  | cons d ds ih =>
    simp only [insertBySize]
    by_cases hc : c.size < d.size
    · simp only [hc, if_true, List.mem_cons, ih]
      tauto
    · simp only [hc, if_false, List.mem_cons]

theorem perm_insertBySize (c : DiskNode) (l : List DiskNode) :
    (insertBySize c l).Perm (c :: l) := by
  induction l with
  | nil => simp [insertBySize]
  | cons d ds ih =>
    simp only [insertBySize]
    by_cases hc : c.size < d.size
    · simp only [hc, if_true]
      exact (ih.cons d).trans (List.Perm.swap c d ds)
    · simp [hc]

theorem perm_sortBySize (l : List DiskNode) : (sortBySize l).Perm l := by
  induction l with
  | nil => simp [sortBySize]
  | cons c cs ih =>
    simpa [sortBySize] using (perm_insertBySize c (sortBySize cs)).trans (ih.cons c)

theorem mem_sortBySize {x : DiskNode} {l : List DiskNode} :
    x ∈ sortBySize l ↔ x ∈ l := (perm_sortBySize l).mem_iff

theorem pairwise_insertBySize {c : DiskNode} {l : List DiskNode}
    (h : l.Pairwise (fun a b => b.size ≤ a.size)) :
    (insertBySize c l).Pairwise (fun a b => b.size ≤ a.size) := by
  induction l with
  | nil => simp [insertBySize]
  | cons d ds ih =>
    simp only [insertBySize]
    rcases List.pairwise_cons.mp h with ⟨hd, hds⟩
    by_cases hc : c.size < d.size
    · simp only [hc, if_true]
      refine List.pairwise_cons.mpr ⟨?_, ih hds⟩
      intro x hx
      rcases mem_insertBySize.mp hx with rfl | hx
      · omega
      · exact hd x hx
    · simp only [hc, if_false]
      refine List.pairwise_cons.mpr ⟨?_, h⟩
      intro x hx
      rcases List.mem_cons.mp hx with rfl | hx
      · omega
      · have h1 := hd x hx
        omega

theorem pairwise_sortBySize (l : List DiskNode) :
    (sortBySize l).Pairwise (fun a b => b.size ≤ a.size) := by
  induction l with
  | nil => simp [sortBySize]
  | cons c cs ih => exact pairwise_insertBySize ih

theorem filter_insertBySize (c : DiskNode) (l : List DiskNode) (k : Nat) :
    (insertBySize c l).filter (fun x => x.size == k) =
      (if c.size = k then [c] else []) ++ l.filter (fun x => x.size == k) := by
  induction l with
  | nil =>
    by_cases hk : c.size = k <;> simp [insertBySize, List.filter_cons, hk]
  | cons d ds ih =>
    simp only [insertBySize]
    by_cases hc : c.size < d.size
    · simp only [hc, if_true]
      by_cases hdk : d.size = k
      · have hck : ¬ c.size = k := by omega
        simp [List.filter, hdk, hck] at ih ⊢
        simp [ih]
      · simp only [List.filter_cons]
        have : (d.size == k) = false := by simp [hdk]
        simp only [this, Bool.false_eq_true, if_false]
        exact ih
    · simp only [hc, if_false]
      by_cases hck : c.size = k <;> simp [List.filter_cons, hck]

theorem filter_sortBySize (l : List DiskNode) (k : Nat) :
    (sortBySize l).filter (fun x => x.size == k) = l.filter (fun x => x.size == k) := by
  induction l with
  | nil => simp [sortBySize]
  | cons c cs ih =>
    simp only [sortBySize, filter_insertBySize, ih, List.filter_cons]
    by_cases hck : c.size = k <;> simp [hck]

/-! ## Aggregates are invariant under the sort -/

theorem childSizeSum_sortBySize (l : List DiskNode) :
    childSizeSum (sortBySize l) = childSizeSum l :=
  List.Perm.sum_eq ((perm_sortBySize l).map DiskNode.size)

theorem natMaxList_perm {l1 l2 : List Nat} (h : l1.Perm l2) :
    natMaxList l1 = natMaxList l2 := by
  induction h with
  | nil => rfl
  | cons x _ ih => simp [natMaxList, List.foldr] at ih ⊢; rw [ih]
  | swap x y l => simp [natMaxList, List.foldr]; rw [max_left_comm]
  | trans _ _ ih1 ih2 => exact ih1.trans ih2

theorem childMtimeMax_sortBySize (l : List DiskNode) :
    childMtimeMax (sortBySize l) = childMtimeMax l :=
  natMaxList_perm ((perm_sortBySize l).map DiskNode.modified_ns)

theorem countDirsKids_eq_sum (l : List DiskNode) :
    countDirsKids l = (l.map countDirs).sum := by
  induction l with
  | nil => simp [countDirsKids]
  | cons c cs ih => simp [countDirsKids, ih]

theorem countFilesKids_eq_sum (l : List DiskNode) :
    countFilesKids l = (l.map countFiles).sum := by
  induction l with
  | nil => simp [countFilesKids]
  | cons c cs ih => simp [countFilesKids, ih]

theorem countDirsKids_sortBySize (l : List DiskNode) :
    countDirsKids (sortBySize l) = countDirsKids l := by
  rw [countDirsKids_eq_sum, countDirsKids_eq_sum]
  exact List.Perm.sum_eq ((perm_sortBySize l).map countDirs)

theorem countFilesKids_sortBySize (l : List DiskNode) :
    countFilesKids (sortBySize l) = countFilesKids l := by
  rw [countFilesKids_eq_sum, countFilesKids_eq_sum]
  exact List.Perm.sum_eq ((perm_sortBySize l).map countFiles)

/-! ## Well-formedness of scanned trees (claims C3 and C7) -/

/-- A single node's invariant: a directory's size is `max` of its children's
size sum and some raw stat size (likewise modified time), and the children
are sorted by descending size. -/
def NodeWellFormed (m : DiskNode) : Prop :=
  (m.is_dir = true →
    ∃ stSz stMt, m.size = max (childSizeSum m.children) stSz ∧
      m.modified_ns = max (childMtimeMax m.children) stMt) ∧
  m.children.Pairwise (fun a b => b.size ≤ a.size)

def TreeWellFormed (n : DiskNode) : Prop := ∀ m ∈ n.iter_all, NodeWellFormed m

theorem treeWellFormed_mk {p : String} {s : Nat} {d : Bool} {mt : Nat}
    {cs : List DiskNode}
    (hself : NodeWellFormed (.mk p s d mt cs))
    (hkids : ∀ c ∈ cs, TreeWellFormed c) :
    TreeWellFormed (.mk p s d mt cs) := by
  intro m hm
  rcases mem_iter_all_iff.mp hm with rfl | ⟨c, hc, hmc⟩
  · exact hself
  · exact hkids c (by simpa [DiskNode.children] using hc) m hmc

/-- Specification of one scan result: the returned tree is well-formed, and
if the returned node is a directory its size/mtime are the `max` of its
children's aggregate and the raw `_safe_stat` of the scanned path. -/
def ScanResultOK (now : Nat) (fs : FS) (r : DiskNode × ScanStats) : Prop :=
  TreeWellFormed r.1 ∧
  (r.1.is_dir = true →
    r.1.size = max (childSizeSum r.1.children) ((safe_stat (statOf fs) now).1) ∧
    r.1.modified_ns = max (childMtimeMax r.1.children) ((safe_stat (statOf fs) now).2))

theorem leaf_result_ok {now : Nat} {fs : FS} (path : String) (sz mt : Nat)
    (rest : ScanStats) :
    ScanResultOK now fs (.mk path sz false mt [], rest) := by
  constructor
  · intro m hm
    rcases mem_iter_all_iff.mp hm with rfl | ⟨c, hc, _⟩
    · exact ⟨by simp [DiskNode.is_dir], by simp [DiskNode.children]⟩
    · simp [DiskNode.children] at hc
  · intro hd
    simp [DiskNode.is_dir] at hd

theorem dir_scan_ok {now : Nat} {fs : FS} {st : Option (Nat × Nat)}
    (hst : statOf fs = st) (path : String)
    (sz mt : Nat) (kids : List DiskNode) (rest : ScanStats)
    (h : (sz = childSizeSum kids ∧ mt = childMtimeMax kids ∧
            ∀ c ∈ kids, TreeWellFormed c) ∨
         (sz = (safe_stat st now).1 ∧ mt = (safe_stat st now).2 ∧ kids = [])) :
    ScanResultOK now fs
      (.mk path (max sz (safe_stat st now).1) true (max mt (safe_stat st now).2)
        (sortBySize kids), rest) := by
  have hsz : max sz (safe_stat st now).1 =
      max (childSizeSum (sortBySize kids)) (safe_stat st now).1 := by
    rw [childSizeSum_sortBySize]
    rcases h with ⟨h1, _, _⟩ | ⟨h1, _, h3⟩
    · rw [h1]
    · subst h3
      rw [h1]
      simp [childSizeSum]
  have hmt : max mt (safe_stat st now).2 =
      max (childMtimeMax (sortBySize kids)) (safe_stat st now).2 := by
    rw [childMtimeMax_sortBySize]
    rcases h with ⟨_, h2, _⟩ | ⟨_, h2, h3⟩
    · rw [h2]
    · subst h3
      rw [h2]
      simp [childMtimeMax, natMaxList]
  constructor
  · apply treeWellFormed_mk
    · constructor
      · intro _
        refine ⟨(safe_stat st now).1, (safe_stat st now).2, ?_, ?_⟩
        · simp only [DiskNode.size, DiskNode.children]
          exact hsz
        · simp only [DiskNode.modified_ns, DiskNode.children]
          exact hmt
      · simp only [DiskNode.children]
        exact pairwise_sortBySize _
    · intro c hc
      rcases h with ⟨_, _, h3⟩ | ⟨_, _, h3⟩
      · exact h3 c (mem_sortBySize.mp hc)
      · subst h3
        simp [sortBySize] at hc
  · intro _
    simp only [DiskNode.size, DiskNode.modified_ns, DiskNode.children, hst]
    exact ⟨hsz, hmt⟩

mutual
theorem scan_node_ok (now : Nat) (follow : Bool) (maxDepth : Nat) :
    ∀ (fs : FS) (path : String) (depth : Nat) (stats : ScanStats),
      ScanResultOK now fs (scan_node now follow maxDepth fs path depth stats)
  | .symlink name tgt, path, depth, stats => by
    simp only [scan_node]
    by_cases hf : follow = true
    · simp only [hf, if_true]
      have h := scan_node_ok now true maxDepth tgt path depth stats
      simpa only [ScanResultOK, statOf] using h
    · simp only [hf, if_false]
      exact leaf_result_ok path _ _ _
  | .file n st, path, depth, stats => by
    simp only [scan_node]
    exact leaf_result_ok path _ _ _
  | .missing n, path, depth, stats => by
    simp only [scan_node]
    exact leaf_result_ok path _ _ _
  | .dir n st (.ok entries), path, depth, stats => by
    simp only [scan_node]
    by_cases hdep : depth < maxDepth
    · simp only [hdep, if_true]
      exact dir_scan_ok rfl path _ _ _ _
        (Or.inl (scan_entries_ok now follow maxDepth entries path depth stats))
    · simp only [hdep, if_false]
      exact dir_scan_ok rfl path _ _ _ _ (Or.inr ⟨rfl, rfl, rfl⟩)
  | .dir n st (.err .permDenied), path, depth, stats => by
    simp only [scan_node]
    by_cases hdep : depth < maxDepth
    · simp only [hdep, if_true]
      refine dir_scan_ok rfl path _ _ _ _ (Or.inl ?_)
      simp [childSizeSum, childMtimeMax, natMaxList]
    · simp only [hdep, if_false]
      exact dir_scan_ok rfl path _ _ _ _ (Or.inr ⟨rfl, rfl, rfl⟩)
  | .dir n st (.err .ioErr), path, depth, stats => by
    simp only [scan_node]
    by_cases hdep : depth < maxDepth
    · simp only [hdep, if_true]
      refine dir_scan_ok rfl path _ _ _ _ (Or.inl ?_)
      simp [childSizeSum, childMtimeMax, natMaxList]
    · simp only [hdep, if_false]
      exact dir_scan_ok rfl path _ _ _ _ (Or.inr ⟨rfl, rfl, rfl⟩)

theorem scan_entries_ok (now : Nat) (follow : Bool) (maxDepth : Nat) :
    ∀ (entries : List FS) (path : String) (depth : Nat) (stats : ScanStats),
      (scan_entries now follow maxDepth entries path depth stats).1 =
          childSizeSum (scan_entries now follow maxDepth entries path depth stats).2.2.1 ∧
      (scan_entries now follow maxDepth entries path depth stats).2.1 =
          childMtimeMax (scan_entries now follow maxDepth entries path depth stats).2.2.1 ∧
      ∀ c ∈ (scan_entries now follow maxDepth entries path depth stats).2.2.1,
        TreeWellFormed c
  | [], path, depth, stats => by
    simp [scan_entries, childSizeSum, childMtimeMax, natMaxList]
  | e :: rest, path, depth, stats => by
    simp only [scan_entries]
    by_cases hig : e.name ∈ IGNORED_NAMES
    · simp only [hig, if_true]
      exact scan_entries_ok now follow maxDepth rest path depth stats
    · simp only [hig, if_false]
      have hnode := scan_node_ok now follow maxDepth e (path ++ "/" ++ e.name)
        (depth + 1) stats
      have hrest := scan_entries_ok now follow maxDepth rest path depth
        (scan_node now follow maxDepth e (path ++ "/" ++ e.name) (depth + 1) stats).2
      refine ⟨?_, ?_, ?_⟩
      · simp only [childSizeSum, List.map_cons, List.sum_cons]
        rw [hrest.1]
        rfl
      · simp only [childMtimeMax, natMaxList, List.map_cons, List.foldr_cons]
        rw [hrest.2.1]
        rfl
      · intro c hc
        rcases List.mem_cons.mp hc with rfl | hc
        · exact hnode.1
        · exact hrest.2.2 c hc
end

/-! ## The statistics counters count exactly the produced nodes (claim C10) -/

mutual
theorem scan_node_counts (now : Nat) (follow : Bool) (maxDepth : Nat) :
    ∀ (fs : FS) (path : String) (depth : Nat) (stats : ScanStats),
      (scan_node now follow maxDepth fs path depth stats).2.files_scanned =
          stats.files_scanned + countFiles (scan_node now follow maxDepth fs path depth stats).1 ∧
      (scan_node now follow maxDepth fs path depth stats).2.dirs_scanned =
          stats.dirs_scanned + countDirs (scan_node now follow maxDepth fs path depth stats).1
  | .symlink name tgt, path, depth, stats => by
    simp only [scan_node]
    by_cases hf : follow = true
    · simp only [hf, if_true]
      exact scan_node_counts now true maxDepth tgt path depth stats
    · simp only [hf, if_false]
      simp [countFiles, countDirs, countFilesKids, countDirsKids]
  | .file n st, path, depth, stats => by
    simp only [scan_node]
    simp [countFiles, countDirs, countFilesKids, countDirsKids]
  | .missing n, path, depth, stats => by
    simp only [scan_node]
    simp [countFiles, countDirs, countFilesKids, countDirsKids]
  | .dir n st (.ok entries), path, depth, stats => by
    simp only [scan_node]
    by_cases hdep : depth < maxDepth
    · simp only [hdep, if_true]
      have h := scan_entries_counts now follow maxDepth entries path depth stats
      simp only [countFiles, countDirs, countFilesKids_sortBySize, countDirsKids_sortBySize,
        if_true]
      refine ⟨?_, ?_⟩
      · rw [h.1]
        omega
      · rw [h.2]
        omega
    · simp only [hdep, if_false]
      simp [countFiles, countDirs, countFilesKids, countDirsKids, sortBySize]
  | .dir n st (.err .permDenied), path, depth, stats => by
    simp only [scan_node]
    by_cases hdep : depth < maxDepth
    · simp only [hdep, if_true]
      simp [countFiles, countDirs, countFilesKids, countDirsKids, sortBySize]
    · simp only [hdep, if_false]
      simp [countFiles, countDirs, countFilesKids, countDirsKids, sortBySize]
  | .dir n st (.err .ioErr), path, depth, stats => by
    simp only [scan_node]
    by_cases hdep : depth < maxDepth
    · simp only [hdep, if_true]
      simp [countFiles, countDirs, countFilesKids, countDirsKids, sortBySize]
    · simp only [hdep, if_false]
      simp [countFiles, countDirs, countFilesKids, countDirsKids, sortBySize]

theorem scan_entries_counts (now : Nat) (follow : Bool) (maxDepth : Nat) :
    ∀ (entries : List FS) (path : String) (depth : Nat) (stats : ScanStats),
      (scan_entries now follow maxDepth entries path depth stats).2.2.2.files_scanned =
          stats.files_scanned +
            countFilesKids (scan_entries now follow maxDepth entries path depth stats).2.2.1 ∧
      (scan_entries now follow maxDepth entries path depth stats).2.2.2.dirs_scanned =
          stats.dirs_scanned +
            countDirsKids (scan_entries now follow maxDepth entries path depth stats).2.2.1
  | [], path, depth, stats => by
    simp [scan_entries, countFilesKids, countDirsKids]
  | e :: rest, path, depth, stats => by
    simp only [scan_entries]
    by_cases hig : e.name ∈ IGNORED_NAMES
    · simp only [hig, if_true]
      exact scan_entries_counts now follow maxDepth rest path depth stats
    · simp only [hig, if_false]
      have hnode := scan_node_counts now follow maxDepth e (path ++ "/" ++ e.name)
        (depth + 1) stats
      have hrest := scan_entries_counts now follow maxDepth rest path depth
        (scan_node now follow maxDepth e (path ++ "/" ++ e.name) (depth + 1) stats).2
      simp only [countFilesKids, countDirsKids]
      constructor
      · rw [hrest.1, hnode.1]
        omega
      · rw [hrest.2, hnode.2]
        omega
end

/-! ## The produced node does not depend on the incoming statistics
(sibling independence, claim C4) -/

mutual
theorem scan_node_indep (now : Nat) (follow : Bool) (maxDepth : Nat) :
    ∀ (fs : FS) (path : String) (depth : Nat) (stats stats' : ScanStats),
      (scan_node now follow maxDepth fs path depth stats).1 =
        (scan_node now follow maxDepth fs path depth stats').1
  | .symlink name tgt, path, depth, stats, stats' => by
    simp only [scan_node]
    by_cases hf : follow = true
    · simp only [hf, if_true]
      exact scan_node_indep now true maxDepth tgt path depth stats stats'
    · simp [hf]
  | .file n st, path, depth, stats, stats' => by
    simp only [scan_node]
  | .missing n, path, depth, stats, stats' => by
    simp only [scan_node]
  | .dir n st (.ok entries), path, depth, stats, stats' => by
    simp only [scan_node]
    by_cases hdep : depth < maxDepth
    · simp only [hdep, if_true]
      have h := scan_entries_indep now follow maxDepth entries path depth stats stats'
      rw [h.1, h.2.1, h.2.2]
    · simp only [hdep, if_false]
  | .dir n st (.err .permDenied), path, depth, stats, stats' => by
    simp only [scan_node]
    by_cases hdep : depth < maxDepth
    · simp only [hdep, if_true]
    · simp only [hdep, if_false]
  | .dir n st (.err .ioErr), path, depth, stats, stats' => by
    simp only [scan_node]
    by_cases hdep : depth < maxDepth
    · simp only [hdep, if_true]
    · simp only [hdep, if_false]

theorem scan_entries_indep (now : Nat) (follow : Bool) (maxDepth : Nat) :
    ∀ (entries : List FS) (path : String) (depth : Nat) (stats stats' : ScanStats),
      (scan_entries now follow maxDepth entries path depth stats).1 =
          (scan_entries now follow maxDepth entries path depth stats').1 ∧
      (scan_entries now follow maxDepth entries path depth stats).2.1 =
          (scan_entries now follow maxDepth entries path depth stats').2.1 ∧
      (scan_entries now follow maxDepth entries path depth stats).2.2.1 =
          (scan_entries now follow maxDepth entries path depth stats').2.2.1
  | [], path, depth, stats, stats' => by
    simp [scan_entries]
  | e :: rest, path, depth, stats, stats' => by
    simp only [scan_entries]
    by_cases hig : e.name ∈ IGNORED_NAMES
    · simp only [hig, if_true]
      exact scan_entries_indep now follow maxDepth rest path depth stats stats'
    · simp only [hig, if_false]
      have hnode := scan_node_indep now follow maxDepth e (path ++ "/" ++ e.name)
        (depth + 1) stats stats'
      have hrest := scan_entries_indep now follow maxDepth rest path depth
        (scan_node now follow maxDepth e (path ++ "/" ++ e.name) (depth + 1) stats).2
        (scan_node now follow maxDepth e (path ++ "/" ++ e.name) (depth + 1) stats').2
      rw [hnode, hrest.1, hrest.2.1, hrest.2.2]
      exact ⟨rfl, rfl, rfl⟩
end

/-! ## Concrete scenario filesystem (spec section 8) -/

/-- The spec's scenario: a root containing `a.txt` (100 bytes) and a
directory `b` whose content `b/c.txt` has 300 bytes.  `os.scandir` order
(directories first, then files by name) lists `b` before `a.txt`. -/
def fsEx7 : FS :=
  .dir "root" (some (0, 5)) (.ok
    [.dir "b" (some (0, 6)) (.ok [.file "c.txt" (some (300, 10))]),
     .file "a.txt" (some (100, 20))])

/-! ## Claim theorems for the scanner -/

/-- Claim C2, counterexample: `scan` of a nonexistent root reports no error
at all — it returns an ordinary `(Node, ScanStatistics)` pair (a zero-size
non-directory leaf, counted as a scanned file, with empty error lists),
contradicting "reports a scan-aborting error ... if the root path is
inaccessible or nonexistent".  (`Path.resolve()` is non-strict and does not
raise for missing paths, and `scan_directory` has no error channel.) -/
theorem scan_missing_root_no_error :
    scan_directory 5 false 4 (.missing "gone") "/gone" =
      (.mk "/gone" 0 false 5 [], ⟨1, 0, [], []⟩) ∧
    (scan_directory 5 false 4 (.missing "gone") "/gone").2.errors = [] ∧
    (scan_directory 5 false 4 (.missing "gone") "/gone").2.permission_denied = [] := by
  refine ⟨by decide, by decide, by decide⟩

/-- Claim C2 (amended): `scan` never reports an error: for every root,
accessible or not, it returns a `(Node, ScanStatistics)` pair; a nonexistent
root is returned as a zero-size non-directory leaf (timestamped `now` by the
`_safe_stat` fallback) counted as one scanned file.  Root validation happens
in the presentation layer (`check_directory_access` in `app.py`), not in
`scan_directory`. -/
theorem scan_directory_total_no_error (now : Nat) (follow : Bool) (maxDepth : Nat)
    (name rootPath : String) :
    (∀ fs : FS, ∃ (n : DiskNode) (s : ScanStats),
        scan_directory now follow maxDepth fs rootPath = (n, s)) ∧
    scan_directory now follow maxDepth (.missing name) rootPath =
      (.mk rootPath 0 false now [], ⟨1, 0, [], []⟩) := by
  constructor
  · intro fs
    exact ⟨_, _, rfl⟩
  · simp [scan_directory, scan_node, safe_stat, emptyStats, sortBySize]

/-! The sub-entry relation of the scanned filesystem: `SubFS sub fs` holds
when `sub` is `fs` itself, an entry somewhere inside one of `fs`'s listed
directories, or inside a symlink target.  Each node of a scanned tree
originates from the scan of such a sub-entry, which pins the raw stat used
for it (`scan_node_origin`). -/
inductive SubFS : FS → FS → Prop where
  | refl (fs : FS) : SubFS fs fs
  | dirEntry (e : FS) (entries : List FS) (name : String)
      (st : Option (Nat × Nat)) (sub : FS) :
      e ∈ entries → SubFS sub e → SubFS sub (.dir name st (.ok entries))
  | symTgt (name : String) (tgt sub : FS) :
      SubFS sub tgt → SubFS sub (.symlink name tgt)

mutual
theorem scan_node_origin (now : Nat) (follow : Bool) (maxDepth : Nat) :
    ∀ (fs : FS) (path : String) (depth : Nat) (stats : ScanStats),
      ∀ m ∈ (scan_node now follow maxDepth fs path depth stats).1.iter_all,
        ∃ fs2 path2 depth2, SubFS fs2 fs ∧
          (scan_node now follow maxDepth fs2 path2 depth2 emptyStats).1 = m
  | .symlink name tgt, path, depth, stats => by
    by_cases hf : follow = true
    · have hres : scan_node now follow maxDepth (.symlink name tgt) path depth stats =
          scan_node now follow maxDepth tgt path depth stats := by
        simp [scan_node, hf]
      intro m hm
      rw [hres] at hm
      obtain ⟨fs2, p2, d2, hsub, heq⟩ :=
        scan_node_origin now follow maxDepth tgt path depth stats m hm
      exact ⟨fs2, p2, d2, SubFS.symTgt name tgt fs2 hsub, heq⟩
    · intro m hm
      rcases mem_iter_all_iff.mp hm with rfl | ⟨c, hc, _⟩
      · exact ⟨.symlink name tgt, path, depth, SubFS.refl _,
          scan_node_indep now follow maxDepth _ path depth emptyStats stats⟩
      · have hch : (scan_node now follow maxDepth (.symlink name tgt) path depth
            stats).1.children = [] := by
          simp [scan_node, hf, DiskNode.children]
        rw [hch] at hc
        simp at hc
  | .file n st, path, depth, stats => by
    intro m hm
    rcases mem_iter_all_iff.mp hm with rfl | ⟨c, hc, _⟩
    · exact ⟨.file n st, path, depth, SubFS.refl _,
        scan_node_indep now follow maxDepth _ path depth emptyStats stats⟩
    · have hch : (scan_node now follow maxDepth (.file n st) path depth
          stats).1.children = [] := by
        simp [scan_node, DiskNode.children]
      rw [hch] at hc
      simp at hc
  | .missing n, path, depth, stats => by
    intro m hm
    rcases mem_iter_all_iff.mp hm with rfl | ⟨c, hc, _⟩
    · exact ⟨.missing n, path, depth, SubFS.refl _,
        scan_node_indep now follow maxDepth _ path depth emptyStats stats⟩
    · have hch : (scan_node now follow maxDepth (.missing n) path depth
          stats).1.children = [] := by
        simp [scan_node, DiskNode.children]
      rw [hch] at hc
      simp at hc
  | .dir n st (.ok entries), path, depth, stats => by
    intro m hm
    rcases mem_iter_all_iff.mp hm with rfl | ⟨c, hc, hmc⟩
    · exact ⟨.dir n st (.ok entries), path, depth, SubFS.refl _,
        scan_node_indep now follow maxDepth _ path depth emptyStats stats⟩
    · by_cases hdep : depth < maxDepth
      · have hch : (scan_node now follow maxDepth (.dir n st (.ok entries)) path depth
            stats).1.children =
            sortBySize (scan_entries now follow maxDepth entries path depth stats).2.2.1 := by
          simp [scan_node, hdep, DiskNode.children]
        rw [hch] at hc
        obtain ⟨e, he, fs2, p2, d2, hsub, heq⟩ :=
          scan_entries_origin now follow maxDepth entries path depth stats c
            (mem_sortBySize.mp hc) m hmc
        exact ⟨fs2, p2, d2, SubFS.dirEntry e entries n st fs2 he hsub, heq⟩
      · have hch : (scan_node now follow maxDepth (.dir n st (.ok entries)) path depth
            stats).1.children = [] := by
          simp [scan_node, hdep, DiskNode.children, sortBySize]
        rw [hch] at hc
        simp at hc
  | .dir n st (.err .permDenied), path, depth, stats => by
    intro m hm
    rcases mem_iter_all_iff.mp hm with rfl | ⟨c, hc, _⟩
    · exact ⟨.dir n st (.err .permDenied), path, depth, SubFS.refl _,
        scan_node_indep now follow maxDepth _ path depth emptyStats stats⟩
    · have hch : (scan_node now follow maxDepth (.dir n st (.err .permDenied)) path depth
          stats).1.children = [] := by
        by_cases hdep : depth < maxDepth <;>
          simp [scan_node, hdep, DiskNode.children, sortBySize]
      rw [hch] at hc
      simp at hc
  | .dir n st (.err .ioErr), path, depth, stats => by
    intro m hm
    rcases mem_iter_all_iff.mp hm with rfl | ⟨c, hc, _⟩
    · exact ⟨.dir n st (.err .ioErr), path, depth, SubFS.refl _,
        scan_node_indep now follow maxDepth _ path depth emptyStats stats⟩
    · have hch : (scan_node now follow maxDepth (.dir n st (.err .ioErr)) path depth
          stats).1.children = [] := by
        by_cases hdep : depth < maxDepth <;>
          simp [scan_node, hdep, DiskNode.children, sortBySize]
      rw [hch] at hc
      simp at hc

theorem scan_entries_origin (now : Nat) (follow : Bool) (maxDepth : Nat) :
    ∀ (entries : List FS) (path : String) (depth : Nat) (stats : ScanStats),
      ∀ c ∈ (scan_entries now follow maxDepth entries path depth stats).2.2.1,
        ∀ m ∈ c.iter_all,
          ∃ e ∈ entries, ∃ fs2 path2 depth2, SubFS fs2 e ∧
            (scan_node now follow maxDepth fs2 path2 depth2 emptyStats).1 = m
  | [], path, depth, stats => by
    intro c hc
    simp [scan_entries] at hc
  | e :: rest, path, depth, stats => by
    intro c hc m hm
    by_cases hig : e.name ∈ IGNORED_NAMES
    · rw [show (scan_entries now follow maxDepth (e :: rest) path depth stats) =
          scan_entries now follow maxDepth rest path depth stats by
        simp [scan_entries, hig]] at hc
      obtain ⟨e2, he2, rest2⟩ :=
        scan_entries_origin now follow maxDepth rest path depth stats c hc m hm
      exact ⟨e2, by simp [he2], rest2⟩
    · have hkids : (scan_entries now follow maxDepth (e :: rest) path depth stats).2.2.1 =
          (scan_node now follow maxDepth e (path ++ "/" ++ e.name) (depth + 1) stats).1 ::
            (scan_entries now follow maxDepth rest path depth
              (scan_node now follow maxDepth e (path ++ "/" ++ e.name) (depth + 1)
                stats).2).2.2.1 := by
        simp [scan_entries, hig]
      rw [hkids] at hc
      rcases List.mem_cons.mp hc with rfl | hc2
      · obtain ⟨fs2, p2, d2, hsub, heq⟩ :=
          scan_node_origin now follow maxDepth e (path ++ "/" ++ e.name) (depth + 1)
            stats m hm
        exact ⟨e, by simp, fs2, p2, d2, hsub, heq⟩
      · obtain ⟨e2, he2, rest2⟩ :=
          scan_entries_origin now follow maxDepth rest path depth
            (scan_node now follow maxDepth e (path ++ "/" ++ e.name) (depth + 1) stats).2
            c hc2 m hm
        exact ⟨e2, by simp [he2], rest2⟩
end

/-- Claim C3: every node of a tree returned by `scan` is itself the scan
result of an actual sub-entry `fs2` of the scanned filesystem, and when it
is a directory its size equals `max(raw _safe_stat size of that very
entry's path, sum of its direct children's sizes)` and its modified time
`max(raw stat time, max of children's times)` — hence size ≥ the children
sum and ≥ the raw stat size.  For the root node the equation is also
stated directly with the scanned root entry. -/
theorem scan_directory_dir_size_mtime_pinned (now : Nat) (follow : Bool)
    (maxDepth : Nat) (fs : FS) (rootPath : String) :
    (∀ m ∈ (scan_directory now follow maxDepth fs rootPath).1.iter_all,
      ∃ fs2 path2 depth2,
        SubFS fs2 fs ∧
        (scan_node now follow maxDepth fs2 path2 depth2 emptyStats).1 = m ∧
        (m.is_dir = true →
          m.size = max (childSizeSum m.children) ((safe_stat (statOf fs2) now).1) ∧
          m.modified_ns = max (childMtimeMax m.children) ((safe_stat (statOf fs2) now).2) ∧
          childSizeSum m.children ≤ m.size ∧
          (safe_stat (statOf fs2) now).1 ≤ m.size)) ∧
    ((scan_directory now follow maxDepth fs rootPath).1.is_dir = true →
      (scan_directory now follow maxDepth fs rootPath).1.size =
        max (childSizeSum (scan_directory now follow maxDepth fs rootPath).1.children)
          ((safe_stat (statOf fs) now).1) ∧
      (scan_directory now follow maxDepth fs rootPath).1.modified_ns =
        max (childMtimeMax (scan_directory now follow maxDepth fs rootPath).1.children)
          ((safe_stat (statOf fs) now).2)) := by
  constructor
  · intro m hm
    obtain ⟨fs2, p2, d2, hsub, heq⟩ :=
      scan_node_origin now follow maxDepth fs rootPath 0 emptyStats m hm
    refine ⟨fs2, p2, d2, hsub, heq, ?_⟩
    intro hd
    have hok := (scan_node_ok now follow maxDepth fs2 p2 d2 emptyStats).2
    rw [heq] at hok
    obtain ⟨h1, h2⟩ := hok hd
    refine ⟨h1, h2, ?_, ?_⟩
    · rw [h1]
      exact Nat.le_max_left _ _
    · rw [h1]
      exact Nat.le_max_right _ _
  · exact (scan_node_ok now follow maxDepth fs rootPath 0 emptyStats).2

theorem scan_directory_dir_size_mtime_pinned_witness :
    ∃ fs2 path2 depth2,
      SubFS fs2 fsEx7 ∧
      (scan_node 1 false 4 fs2 path2 depth2 emptyStats).1 =
        (scan_directory 1 false 4 fsEx7 "root").1 ∧
      ((scan_directory 1 false 4 fsEx7 "root").1.is_dir = true →
        (scan_directory 1 false 4 fsEx7 "root").1.size =
          max (childSizeSum (scan_directory 1 false 4 fsEx7 "root").1.children)
            ((safe_stat (statOf fs2) 1).1) ∧
        (scan_directory 1 false 4 fsEx7 "root").1.modified_ns =
          max (childMtimeMax (scan_directory 1 false 4 fsEx7 "root").1.children)
            ((safe_stat (statOf fs2) 1).2) ∧
        childSizeSum (scan_directory 1 false 4 fsEx7 "root").1.children ≤
          (scan_directory 1 false 4 fsEx7 "root").1.size ∧
        (safe_stat (statOf fs2) 1).1 ≤ (scan_directory 1 false 4 fsEx7 "root").1.size) :=
  (scan_directory_dir_size_mtime_pinned 1 false 4 fsEx7 "root").1 _
    (self_mem_iter_all _)


/-- Claim C4: a directory whose listing raises permission-denied is recorded
in the permission-denied list (appended at the end) and contributes zero
children; other I/O errors are recorded in the error list with zero
children; and the produced node never depends on the incoming statistics, so
sibling subtrees are unaffected (the embedding is total, so no exception
propagates). -/
theorem scan_listing_errors_recorded (now : Nat) (follow : Bool)
    (maxDepth depth : Nat) (name : String) (st : Option (Nat × Nat))
    (path : String) (stats : ScanStats) (h : depth < maxDepth) :
    ((scan_node now follow maxDepth (.dir name st (.err .permDenied)) path depth stats).1.children
        = [] ∧
     (scan_node now follow maxDepth (.dir name st (.err .permDenied)) path depth stats).2.permission_denied
        = stats.permission_denied ++ [path] ∧
     path ∈ (scan_node now follow maxDepth (.dir name st (.err .permDenied)) path depth stats).2.permission_denied ∧
     (scan_node now follow maxDepth (.dir name st (.err .permDenied)) path depth stats).2.errors
        = stats.errors) ∧
    ((scan_node now follow maxDepth (.dir name st (.err .ioErr)) path depth stats).1.children
        = [] ∧
     (scan_node now follow maxDepth (.dir name st (.err .ioErr)) path depth stats).2.errors
        = stats.errors ++ [path] ∧
     path ∈ (scan_node now follow maxDepth (.dir name st (.err .ioErr)) path depth stats).2.errors ∧
     (scan_node now follow maxDepth (.dir name st (.err .ioErr)) path depth stats).2.permission_denied
        = stats.permission_denied) ∧
    (∀ (fs : FS) (p : String) (d : Nat) (s s' : ScanStats),
      (scan_node now follow maxDepth fs p d s).1 =
        (scan_node now follow maxDepth fs p d s').1) := by
  refine ⟨?_, ?_, ?_⟩
  · simp [scan_node, h, sortBySize, DiskNode.children]
  · simp [scan_node, h, sortBySize, DiskNode.children]
  · intro fs p d s s'
    exact scan_node_indep now follow maxDepth fs p d s s'

theorem scan_listing_errors_recorded_witness :
    (scan_node 3 false 4 (.dir "d" none (.err .permDenied)) "p" 0 emptyStats).1.children
        = [] ∧
    (scan_node 3 false 4 (.dir "d" none (.err .permDenied)) "p" 0 emptyStats).2.permission_denied
        = emptyStats.permission_denied ++ ["p"] ∧
    "p" ∈ (scan_node 3 false 4 (.dir "d" none (.err .permDenied)) "p" 0 emptyStats).2.permission_denied ∧
    (scan_node 3 false 4 (.dir "d" none (.err .permDenied)) "p" 0 emptyStats).2.errors
        = emptyStats.errors :=
  (scan_listing_errors_recorded 3 false 4 0 "d" none "p" emptyStats (by decide)).1

/-- Claim C5: a directory reached at depth = maxDepth (indeed any depth ≥
maxDepth, which the recursion only ever reaches with equality) is not
expanded: zero children, size and mtime from its own raw stat; in
particular maxDepth = 0 on a directory root yields a childless root sized
by its own raw stat. -/
theorem scan_dir_at_max_depth_not_expanded (now : Nat) (follow : Bool)
    (maxDepth depth : Nat) (name : String) (st : Option (Nat × Nat))
    (listing : Listing) (path rootPath : String) (stats : ScanStats)
    (h : maxDepth ≤ depth) :
    scan_node now follow maxDepth (.dir name st listing) path depth stats =
      (.mk path (safe_stat st now).1 true (safe_stat st now).2 [],
       { stats with dirs_scanned := stats.dirs_scanned + 1 }) ∧
    (scan_directory now follow 0 (.dir name st listing) rootPath).1 =
      .mk rootPath (safe_stat st now).1 true (safe_stat st now).2 [] := by
  have hdep : ¬ depth < maxDepth := by omega
  constructor
  · rcases listing with entries | e
    · simp [scan_node, hdep, sortBySize]
    · rcases e with _ | _ <;> simp [scan_node, hdep, sortBySize]
  · rcases listing with entries | e
    · simp [scan_directory, scan_node, sortBySize]
    · rcases e with _ | _ <;> simp [scan_directory, scan_node, sortBySize]

theorem scan_dir_at_max_depth_not_expanded_witness :
    scan_node 2 false 4 (.dir "d" (some (7, 9)) (.ok [.file "x" (some (1, 1))])) "p" 4
        emptyStats =
      (.mk "p" 7 true 9 [], ⟨0, 1, [], []⟩) := by
  have h := (scan_dir_at_max_depth_not_expanded 2 false 4 4 "d" (some (7, 9))
    (.ok [.file "x" (some (1, 1))]) "p" "r" emptyStats (by decide)).1
  simpa [safe_stat, emptyStats] using h

/-- Claim C6: with `followSymlinks = false` a symlink becomes a leaf — not a
directory, zero children — sized and timestamped by `_safe_stat` of the
resolved target, never recursed into; a symlink to a 50-byte target yields a
leaf of size 50 with zero children. -/
theorem scan_symlink_no_follow_leaf (now maxDepth : Nat) (name : String) (tgt : FS)
    (path : String) (depth : Nat) (stats : ScanStats) :
    scan_node now false maxDepth (.symlink name tgt) path depth stats =
      (.mk path (safe_stat (statOf tgt) now).1 false (safe_stat (statOf tgt) now).2 [],
       { stats with files_scanned := stats.files_scanned + 1 }) ∧
    (scan_node now false maxDepth (.symlink "link" (.file "target" (some (50, 7))))
        path depth stats).1 =
      .mk path 50 false 7 [] := by
  constructor
  · simp [scan_node]
  · simp [scan_node, statOf, safe_stat]

/-- Entries whose name lies in `IGNORED_NAMES` have no effect whatsoever on
the scan: the child loop is equal to the same loop run on the listing with
those entries filtered out. -/
theorem scan_entries_filter_ignored (now : Nat) (follow : Bool) (maxDepth : Nat) :
    ∀ (entries : List FS) (path : String) (depth : Nat) (stats : ScanStats),
      scan_entries now follow maxDepth entries path depth stats =
        scan_entries now follow maxDepth
          (entries.filter (fun e => decide (e.name ∉ IGNORED_NAMES))) path depth stats := by
  intro entries path depth
  induction entries with
  | nil => intro stats; rfl
  | cons e rest ih =>
    intro stats
    by_cases hig : e.name ∈ IGNORED_NAMES
    · have hd : (decide (e.name ∉ IGNORED_NAMES)) = false := by simpa using hig
      simp only [List.filter_cons, hd, Bool.false_eq_true, if_false]
      simp only [scan_entries, hig, if_true]
      exact ih stats
    · have hd : (decide (e.name ∉ IGNORED_NAMES)) = true := by simpa using hig
      simp only [List.filter_cons, hd, if_true]
      simp only [scan_entries, hig, if_false]
      rw [ih]

/-- Claim C10: after a scan, `dirs_scanned` is exactly the number of
directory nodes of the returned tree and `files_scanned` exactly the number
of non-directory nodes (file and symlink leaves); ignored entries are
counted in neither and appear nowhere, since the child loop equals the loop
on the ignored-filtered listing. -/
theorem scan_stats_count_tree_nodes (now : Nat) (follow : Bool) (maxDepth : Nat)
    (fs : FS) (rootPath : String) :
    (scan_directory now follow maxDepth fs rootPath).2.dirs_scanned =
        countDirs (scan_directory now follow maxDepth fs rootPath).1 ∧
    (scan_directory now follow maxDepth fs rootPath).2.files_scanned =
        countFiles (scan_directory now follow maxDepth fs rootPath).1 ∧
    (∀ (entries : List FS) (path : String) (depth : Nat) (stats : ScanStats),
      scan_entries now follow maxDepth entries path depth stats =
        scan_entries now follow maxDepth
          (entries.filter (fun e => decide (e.name ∉ IGNORED_NAMES))) path depth stats) := by
  have h := scan_node_counts now follow maxDepth fs rootPath 0 emptyStats
  refine ⟨?_, ?_, scan_entries_filter_ignored now follow maxDepth⟩
  · have := h.2
    simpa [scan_directory, emptyStats] using this
  · have := h.1
    simpa [scan_directory, emptyStats] using this

/-- Claim C7: in every tree returned by `scan`, each directory's children
are sorted by descending size; the sort used (`sortBySize`) is stable —
children of equal size keep the scan order (filtering any size class
commutes with the sort, and the sort is a permutation); and on the spec's
scenario (`a.txt` 100 bytes, `b` aggregating 300 bytes) the children order
is `[b, a.txt]`. -/
theorem scan_children_sorted_desc_stable (now : Nat) (follow : Bool) (maxDepth : Nat)
    (fs : FS) (rootPath : String) :
    (∀ m ∈ (scan_directory now follow maxDepth fs rootPath).1.iter_all,
        m.children.Pairwise (fun a b => b.size ≤ a.size)) ∧
    (∀ (l : List DiskNode) (k : Nat),
        (sortBySize l).filter (fun x => x.size == k) = l.filter (fun x => x.size == k) ∧
        (sortBySize l).Perm l) ∧
    ((scan_directory 1 false 4 fsEx7 "root").1.size = 400 ∧
     (scan_directory 1 false 4 fsEx7 "root").1.children.map DiskNode.path =
        ["root/b", "root/a.txt"] ∧
     (scan_directory 1 false 4 fsEx7 "root").1.children.map DiskNode.size = [300, 100]) := by
  refine ⟨?_, ?_, by decide, by decide, by decide⟩
  · intro m hm
    exact ((scan_node_ok now follow maxDepth fs rootPath 0 emptyStats).1 m hm).2
  · intro l k
    exact ⟨filter_sortBySize l k, perm_sortBySize l⟩

theorem scan_children_sorted_desc_stable_witness :
    (scan_directory 1 false 4 fsEx7 "root").1.children.Pairwise
      (fun a b => b.size ≤ a.size) :=
  (scan_children_sorted_desc_stable 1 false 4 fsEx7 "root").1 _ (self_mem_iter_all _)

/-! ## Treemap layout (`treemap.py`)

Geometry is embedded over `Rat`.  The float guards `1e-6` become the exact
rational `EPS`; Python's `or 1` on a numeric value is `if it is 0 then 1`.
The `for` loops of `_layout_row` and `_layout_simple` that thread a running
offset become the explicit recursions `placeRowH`/`placeRowV` and
`placeSimpleH`/`placeSimpleV`. -/

structure Rect where
  x : Rat
  y : Rat
  width : Rat
  height : Rat
deriving DecidableEq

/-- Embedding of `Rect.inset`. -/
def Rect.inset (r : Rect) (padding : Rat) : Rect :=
  ⟨r.x + padding, r.y + padding,
   max 0 (r.width - 2 * padding), max 0 (r.height - 2 * padding)⟩

/-- Embedding of `NodeRect`. -/
structure NodeRect where
  node : DiskNode
  rect : Rect
  depth : Nat
  parent : Option DiskNode
deriving DecidableEq

def EPS : Rat := 1 / 1000000

def sumQ (l : List Rat) : Rat := l.foldl (· + ·) 0

/-- Embedding of `_worst_ratio` (the `row = []` case returns `inf` in
Python but is never consulted: `_squarify` only compares ratios of nonempty
rows; the placeholder value 0 here is likewise never consulted). -/
def worst_ratio (row : List (DiskNode × Rat)) (rect : Rect) : Rat :=
  match row.map (fun p => max p.2 EPS) with
  | [] => 0
  | a :: as' =>
    let short_side := max (min rect.width rect.height) EPS
    let total := sumQ (a :: as')
    let max_area := as'.foldl max a
    let min_area := as'.foldl min a
    max ((short_side ^ 2 * max_area) / (total ^ 2)) ((total ^ 2) / (short_side ^ 2 * min_area))

def placeRowH (y h : Rat) : List (DiskNode × Rat) → Rat → List (DiskNode × Rect)
  | [], _ => []
  | (c, a) :: rest, x =>
      (c, Rect.mk x y (a / max h EPS) h) :: placeRowH y h rest (x + a / max h EPS)

def placeRowV (x w : Rat) : List (DiskNode × Rat) → Rat → List (DiskNode × Rect)
  | [], _ => []
  | (c, a) :: rest, y =>
      (c, Rect.mk x y w (a / max w EPS)) :: placeRowV x w rest (y + a / max w EPS)

/-- Embedding of `_layout_row`: places the row inside `rect` (horizontal
band if `rect` is at least as wide as tall, vertical band otherwise) and
returns the remaining rectangle. -/
def layout_row (row : List (DiskNode × Rat)) (rect : Rect) :
    List (DiskNode × Rect) × Rect :=
  match row with
  | [] => ([], rect)
  | _ =>
    let row_area := sumQ (row.map Prod.snd)
    if rect.width ≥ rect.height then
      let row_height := row_area / max rect.width EPS
      (placeRowH rect.y row_height row rect.x,
       Rect.mk rect.x (rect.y + row_height) rect.width (max (rect.height - row_height) 0))
    else
      let row_width := row_area / max rect.height EPS
      (placeRowV rect.x row_width row rect.y,
       Rect.mk (rect.x + row_width) rect.y (max (rect.width - row_width) 0) rect.height)

def placeSimpleH (rect : Rect) (total : Rat) :
    List (DiskNode × Rat) → Rat → List (DiskNode × Rect)
  | [], _ => []
  | (c, a) :: rest, offset =>
      (c, Rect.mk (rect.x + offset) rect.y (rect.width * (a / total)) rect.height) ::
        placeSimpleH rect total rest (offset + rect.width * (a / total))

def placeSimpleV (rect : Rect) (total : Rat) :
    List (DiskNode × Rat) → Rat → List (DiskNode × Rect)
  | [], _ => []
  | (c, a) :: rest, offset =>
      (c, Rect.mk rect.x (rect.y + offset) rect.width (rect.height * (a / total))) ::
        placeSimpleV rect total rest (offset + rect.height * (a / total))

/-- Embedding of `_layout_simple`: one slicing pass across `rect`. -/
def layout_simple (items : List (DiskNode × Rat)) (rect : Rect) :
    List (DiskNode × Rect) :=
  match items with
  | [] => []
  | _ =>
    let s := sumQ (items.map Prod.snd)
    let total := if s = 0 then 1 else s
    if rect.width ≥ rect.height then placeSimpleH rect total items 0
    else placeSimpleV rect total items 0

/-- Embedding of `_squarify` with its `depth_limit` fuel: at fuel 0, fall
back to `_layout_simple` on the remaining items; otherwise greedily grow
the current row while the worst aspect ratio does not degrade, else flush
the row and continue in the remaining rectangle.  (The `acc` output
parameter of the Python version is the returned list here.) -/
def squarify : List (DiskNode × Rat) → List (DiskNode × Rat) → Rect → Nat →
    List (DiskNode × Rect)
  | items, _, rect, 0 => layout_simple items rect
  | [], row, rect, _ + 1 =>
      if row.isEmpty then [] else (layout_row row rect).1
  | first :: rest, row, rect, fuel + 1 =>
      let new_row := row ++ [first]
      if row.isEmpty || worst_ratio new_row rect ≤ worst_ratio row rect then
        squarify rest new_row rect fuel
      else
        let lr := layout_row row rect
        lr.1 ++ squarify (first :: rest) [] lr.2 fuel

/-- Embedding of `_squarify_children`: sort children by descending size,
convert `max(size, 1)` to areas proportional to the bounds area, run
`_squarify` with `depth_limit = 2000`. -/
def squarify_children (children : List DiskNode) (bounds : Rect) :
    List (DiskNode × Rect) :=
  match children with
  | [] => []
  | _ =>
    let sorted_children := sortBySize children
    let t : Nat := (sorted_children.map (fun c => max c.size 1)).foldl (· + ·) 0
    let total_size : Rat := if t = 0 then 1 else (t : Rat)
    let ta := bounds.width * bounds.height
    let total_area := if ta = 0 then 1 else ta
    let areas := sorted_children.map
      (fun c => (c, ((max c.size 1 : Nat) : Rat) / total_size * total_area))
    squarify areas [] bounds 2000

/-! ## Every rectangle produced by the row machinery belongs to an input
child (needed both for the termination of `slice_and_dice` and for C9) -/

theorem map_fst_placeRowH (y h : Rat) :
    ∀ (row : List (DiskNode × Rat)) (x : Rat),
      (placeRowH y h row x).map Prod.fst = row.map Prod.fst := by
  intro row
  induction row with
  | nil => intro x; simp [placeRowH]
  | cons p rest ih =>
    intro x
    match p with
    | (c, a) => simp [placeRowH, ih]

theorem map_fst_placeRowV (x w : Rat) :
    ∀ (row : List (DiskNode × Rat)) (y : Rat),
      (placeRowV x w row y).map Prod.fst = row.map Prod.fst := by
  intro row
  induction row with
  | nil => intro y; simp [placeRowV]
  | cons p rest ih =>
    intro y
    match p with
    | (c, a) => simp [placeRowV, ih]

theorem map_fst_layout_row (row : List (DiskNode × Rat)) (rect : Rect) :
    ((layout_row row rect).1).map Prod.fst = row.map Prod.fst := by
  match row with
  | [] => simp [layout_row]
  | p :: rest =>
    simp only [layout_row]
    by_cases hw : rect.width ≥ rect.height
    · simp [hw, map_fst_placeRowH]
    · simp [hw, map_fst_placeRowV]

theorem map_fst_placeSimpleH (rect : Rect) (total : Rat) :
    ∀ (items : List (DiskNode × Rat)) (o : Rat),
      (placeSimpleH rect total items o).map Prod.fst = items.map Prod.fst := by
  intro items
  induction items with
  | nil => intro o; simp [placeSimpleH]
  | cons p rest ih =>
    intro o
    match p with
    | (c, a) => simp [placeSimpleH, ih]

theorem map_fst_placeSimpleV (rect : Rect) (total : Rat) :
    ∀ (items : List (DiskNode × Rat)) (o : Rat),
      (placeSimpleV rect total items o).map Prod.fst = items.map Prod.fst := by
  intro items
  induction items with
  | nil => intro o; simp [placeSimpleV]
  | cons p rest ih =>
    intro o
    match p with
    | (c, a) => simp [placeSimpleV, ih]

theorem map_fst_layout_simple (items : List (DiskNode × Rat)) (rect : Rect) :
    (layout_simple items rect).map Prod.fst = items.map Prod.fst := by
  match items with
  | [] => simp [layout_simple]
  | p :: rest =>
    simp only [layout_simple]
    by_cases hw : rect.width ≥ rect.height
    · simp [hw, map_fst_placeSimpleH]
    · simp [hw, map_fst_placeSimpleV]

theorem mem_squarify_fst :
    ∀ (fuel : Nat) (items row : List (DiskNode × Rat)) (rect : Rect) (p : DiskNode × Rect),
      p ∈ squarify items row rect fuel →
      p.1 ∈ (row ++ items).map Prod.fst := by
  intro fuel
  induction fuel with
  | zero =>
    intro items row rect p hp
    simp only [squarify] at hp
    have hm : p.1 ∈ (layout_simple items rect).map Prod.fst := List.mem_map_of_mem _ hp
    rw [map_fst_layout_simple] at hm
    simp only [List.map_append, List.mem_append]
    exact Or.inr hm
  | succ fuel ih =>
    intro items row rect p hp
    match items with
    | [] =>
      simp only [squarify] at hp
      by_cases hr : row.isEmpty
      · simp [hr] at hp
      · simp only [hr, if_false, Bool.false_eq_true] at hp
        have hm : p.1 ∈ ((layout_row row rect).1).map Prod.fst := List.mem_map_of_mem _ hp
        rw [map_fst_layout_row] at hm
        simpa using hm
    | first :: rest =>
      simp only [squarify] at hp
      by_cases hc : row.isEmpty = true ∨ worst_ratio (row ++ [first]) rect ≤ worst_ratio row rect
      · rw [if_pos (by simpa using hc)] at hp
        have := ih rest (row ++ [first]) rect p hp
        simp only [List.map_append, List.mem_append] at this ⊢
        rcases this with (h | h) | h
        · exact Or.inl h
        · exact Or.inr (by simp at h; simp [h])
        · exact Or.inr (by simp [h])
      · rw [if_neg (by simpa using hc)] at hp
        rcases List.mem_append.mp hp with h | h
        · have hm : p.1 ∈ ((layout_row row rect).1).map Prod.fst := List.mem_map_of_mem _ h
          rw [map_fst_layout_row] at hm
          simp only [List.map_append, List.mem_append]
          exact Or.inl hm
        · have := ih (first :: rest) [] (layout_row row rect).2 p h
          simp only [List.nil_append] at this
          simp only [List.map_append, List.mem_append]
          exact Or.inr this

theorem mem_squarify_children {c : DiskNode} {r : Rect} {children : List DiskNode}
    {bounds : Rect} (h : (c, r) ∈ squarify_children children bounds) : c ∈ children := by
  match children with
  | [] => simp [squarify_children] at h
  | c0 :: cs =>
    simp only [squarify_children] at h
    have h2 := mem_squarify_fst 2000 _ [] bounds (c, r) h
    simp only [List.nil_append, List.map_map, List.mem_map] at h2
    rcases h2 with ⟨d, hd, hde⟩
    have : c = d := by simpa using hde.symm
    subst this
    exact mem_sortBySize.mp hd

theorem sizeOf_mem_children {c n : DiskNode} (h : c ∈ n.children) :
    sizeOf c < sizeOf n := by
  match n with
  | .mk p s d m cs =>
    simp only [DiskNode.children] at h
    have := List.sizeOf_lt_of_mem h
    simp only [DiskNode.mk.sizeOf_spec]
    omega

/-- The stop condition of `slice_and_dice` (line 82 of `treemap.py`):
no children, size ≤ 0 (i.e. 0 on `Nat`), or the depth limit reached. -/
def sadStop (node : DiskNode) (depth : Nat) (max_depth : Option Nat) : Bool :=
  node.children.isEmpty || node.size == 0 ||
    (match max_depth with
     | some md => depth ≥ md
     | none => false)

/-- Embedding of `slice_and_dice`: emit this node's rectangle; unless the
stop condition holds, lay out the children with `_squarify_children` and
recurse into each child rectangle at depth+1 with this node as parent. -/
def slice_and_dice (node : DiskNode) (bounds : Rect) (depth : Nat)
    (parent : Option DiskNode) (max_depth : Option Nat) : List NodeRect :=
  if sadStop node depth max_depth then [⟨node, bounds, depth, parent⟩]
  else
    ⟨node, bounds, depth, parent⟩ ::
      ((squarify_children node.children bounds).attach.map
        (fun cr => slice_and_dice cr.1.1 cr.1.2 (depth + 1) (some node) max_depth)).flatten
termination_by sizeOf node
decreasing_by
  exact sizeOf_mem_children (mem_squarify_children cr.2)
/-! ## Claim C8: the layout list is a pre-order traversal -/

/-! The shape of a pre-order layout list rooted at `n` with rectangle `b`,
depth `d` and parent `p`: either the single entry for `n` itself, or the
entry for `n` followed by the concatenation of pre-order layout lists of
the laid-out children, each at depth `d + 1` with parent `n`, each
contiguous and in order (`PreSubs` relates the child/rectangle pairs to
their consecutive sublayouts). -/
mutual
inductive PreLayout : DiskNode → Rect → Nat → Option DiskNode → List NodeRect → Prop where
  | stop (n : DiskNode) (b : Rect) (d : Nat) (p : Option DiskNode) :
      PreLayout n b d p [⟨n, b, d, p⟩]
  | grow (n : DiskNode) (b : Rect) (d : Nat) (p : Option DiskNode)
      (pairs : List (DiskNode × Rect)) (subs : List (List NodeRect))
      (h : PreSubs n d pairs subs) :
      PreLayout n b d p (⟨n, b, d, p⟩ :: subs.flatten)
inductive PreSubs : DiskNode → Nat → List (DiskNode × Rect) → List (List NodeRect) → Prop where
  | nil (n : DiskNode) (d : Nat) : PreSubs n d [] []
  | cons (n : DiskNode) (d : Nat) (c : DiskNode) (r : Rect) (sub : List NodeRect)
      (pairs : List (DiskNode × Rect)) (subs : List (List NodeRect))
      (hc : PreLayout c r (d + 1) (some n) sub) (hrest : PreSubs n d pairs subs) :
      PreSubs n d ((c, r) :: pairs) (sub :: subs)
end

theorem preSubs_of_map {n : DiskNode} {d : Nat} (f : DiskNode × Rect → List NodeRect) :
    ∀ (pairs : List (DiskNode × Rect)),
      (∀ pr ∈ pairs, PreLayout pr.1 pr.2 (d + 1) (some n) (f pr)) →
      PreSubs n d pairs (pairs.map f) := by
  intro pairs
  induction pairs with
  | nil => intro _; exact PreSubs.nil n d
  | cons pr rest ih =>
    intro h
    have h1 := h pr (by simp)
    have h2 := ih (fun q hq => h q (by simp [hq]))
    match pr with
    | (c, r) => exact PreSubs.cons n d c r (f (c, r)) rest (rest.map f) h1 h2

theorem sizeOf_DiskNode_pos (n : DiskNode) : 0 < sizeOf n := by
  match n with
  | .mk p s d m cs =>
    simp only [DiskNode.mk.sizeOf_spec]
    omega

/-- Claim C8: for every node, bounds, depth, parent and depth limit, the
list returned by `slice_and_dice` is in pre-order: its first element is the
laid-out node itself, and each laid-out child's entire subtree follows
contiguously, before the next sibling's subtree. -/
theorem slice_and_dice_preorder (n : DiskNode) (b : Rect) (d : Nat)
    (p : Option DiskNode) (m : Option Nat) :
    PreLayout n b d p (slice_and_dice n b d p m) := by
  have main : ∀ (k : Nat) (n : DiskNode), sizeOf n ≤ k →
      ∀ (b : Rect) (d : Nat) (p : Option DiskNode) (m : Option Nat),
        PreLayout n b d p (slice_and_dice n b d p m) := by
    intro k
    induction k with
    | zero =>
      intro n hn
      exact absurd hn (by have := sizeOf_DiskNode_pos n; omega)
    | succ k ih =>
      intro n hn b d p m
      rw [slice_and_dice.eq_def]
      by_cases hs : sadStop n d m
      · rw [if_pos hs]
        exact PreLayout.stop n b d p
      · rw [if_neg hs]
        have hmap : ((squarify_children n.children b).attach.map
            (fun cr => slice_and_dice cr.1.1 cr.1.2 (d + 1) (some n) m)) =
            (squarify_children n.children b).map
              (fun pr => slice_and_dice pr.1 pr.2 (d + 1) (some n) m) := by
          exact List.attach_map_coe (squarify_children n.children b)
            (fun pr => slice_and_dice pr.1 pr.2 (d + 1) (some n) m)
        rw [hmap]
        refine PreLayout.grow n b d p (squarify_children n.children b) _ ?_
        refine preSubs_of_map _ _ ?_
        intro pr hpr
        have hlt : sizeOf pr.1 < sizeOf n := by
          have hm : (pr.1, pr.2) ∈ squarify_children n.children b := by
            simpa using hpr
          exact sizeOf_mem_children (mem_squarify_children hm)
        exact ih pr.1 (by omega) pr.2 (d + 1) (some n) m
  exact main (sizeOf n) n le_rfl b d p m

/-! ## Claim C9: capped recursion and slicing fallback -/

/-- Claim C9: the layout recursion terminates on every input — `squarify`
is a total function, structurally recursive on its `depth_limit` fuel (2000
at the call site in `squarify_children`), and `slice_and_dice` is total by
well-founded recursion on the tree — and when the cap is exhausted the
remaining unconsumed children are laid out by the single slicing pass
`_layout_simple`; moreover every rectangle `squarify` emits belongs to one
of the children it was given (current row or remaining items), and
`squarify_children` only emits rectangles of the given children. -/
theorem squarify_terminates_capped :
    (∀ (items row : List (DiskNode × Rat)) (rect : Rect),
      squarify items row rect 0 = layout_simple items rect) ∧
    (∀ (fuel : Nat) (items row : List (DiskNode × Rat)) (rect : Rect) (p : DiskNode × Rect),
      p ∈ squarify items row rect fuel → p.1 ∈ (row ++ items).map Prod.fst) ∧
    (∀ (children : List DiskNode) (bounds : Rect) (c : DiskNode) (r : Rect),
      (c, r) ∈ squarify_children children bounds → c ∈ children) := by
  refine ⟨?_, mem_squarify_fst, fun children bounds c r h => mem_squarify_children h⟩
  intro items row rect
  cases items <;> rfl

def nodeA : DiskNode := .mk "a" 1 false 0 []

theorem squarify_terminates_capped_witness :
    nodeA ∈ (([(nodeA, (2 : Rat))] ++ []).map Prod.fst) := by
  refine squarify_terminates_capped.2.1 1 [] [(nodeA, 2)] (Rect.mk 0 0 2 1)
    (nodeA, Rect.mk 0 0 2 1) ?_
  have h : squarify [] [(nodeA, 2)] (Rect.mk 0 0 2 1) 1 = [(nodeA, Rect.mk 0 0 2 1)] := by
    simp [squarify, layout_row, placeRowH, sumQ, EPS]
    norm_num
  rw [h]
  simp

/-! ## Search filter (`filter_layout`)

Important caveat on dict/set semantics: `DiskNode` is a plain `@dataclass`
(model.py line 10) with the defaults `eq = True`, `frozen = False`, which
sets `__hash__ = None`.  A `DiskNode` therefore cannot actually be used as
a dict key or set element: consuming the `filter_layout` generator for any
non-empty query on a non-empty layout raises
`TypeError: unhashable type: 'DiskNode'` at the `parent_map` construction
(treemap.py line 214) before anything is yielded.  `filter_layout_exec`
below models that actual runtime outcome.  The definitions between here
and there (`parentOf`, `matchSet`, the walks, `filter_layout` itself)
model the *algorithm the function body writes down* under the dict/set
semantics it assumes — keys compared by the dataclass `__eq__`, i.e.
structural equality — which is the behavior the code would exhibit were
`DiskNode` hashable consistently with its `__eq__` (e.g. `frozen = True`).

Under those assumed semantics the Python body builds:
  * `parent_map` — a dict from layout node to its parent (last entry wins);
  * `matching_nodes` — the set of layout nodes whose lowercased path
    contains the lowercased query (sets are modelled as duplicate-free
    lists in first-insertion order; all observations are membership);
  * an ancestor walk per match, stopping at the first already-included
    ancestor (`ancWalk`, a while loop whose termination measure is the
    number of parent values not yet included);
  * a fixpoint loop adding any layout node whose parent is included
    (`descendPass`/`descendLoop`; the Python `added` flag is true exactly
    when the pass changed the set);
  * finally the order-preserving restriction of the layout to the set. -/

/-- Python `str.lower()` on a string, as a character list. -/
def strLower (s : String) : List Char := s.toList.map Char.toLower

/-- Does `needle` occur at the start of `hay`? -/
def startsList : List Char → List Char → Bool
  | [], _ => true
  | _ :: _, [] => false
  | c :: cs, d :: ds => c == d && startsList cs ds

/-- Python's substring test `needle in hay`. -/
def hasSub (hay needle : List Char) : Bool :=
  startsList needle hay ||
    (match hay with
     | [] => false
     | _ :: t => hasSub t needle)

def nodesOf (L : List NodeRect) : List DiskNode := L.map (fun l => l.node)

/-- All parent values recorded in the layout (the possible values of the
`parent_map` lookups). -/
def parentCands (L : List NodeRect) : List DiskNode :=
  L.filterMap (fun l => l.parent)

/-- `parent_map.get(nd)`: the parent field of the last layout entry whose
node equals `nd` (dict comprehension semantics: later keys overwrite),
`none` when `nd` is no layout node or its parent field is `None`.  This is
the lookup the comprehension at treemap.py line 214 intends; at runtime
that comprehension instead raises `TypeError` on any non-empty layout
because `DiskNode` is unhashable (see the section comment and
`filter_layout_exec`). -/
def parentOf (L : List NodeRect) (nd : DiskNode) : Option DiskNode :=
  match (L.reverse).find? (fun l => l.node == nd) with
  | some l => l.parent
  | none => none

theorem parentOf_spec {L : List NodeRect} {nd p : DiskNode}
    (h : parentOf L nd = some p) :
    ∃ l ∈ L, l.node = nd ∧ l.parent = some p := by
  simp only [parentOf] at h
  rcases hf : (L.reverse).find? (fun l => l.node == nd) with _ | l
  · rw [hf] at h
    exact absurd h (by simp)
  · rw [hf] at h
    refine ⟨l, ?_, ?_, h⟩
    · exact List.mem_reverse.mp (List.mem_of_find?_eq_some hf)
    · have := List.find?_some hf
      simpa using this

theorem parentOf_mem_cands (L : List NodeRect) (nd p : DiskNode)
    (h : parentOf L nd = some p) : p ∈ parentCands L := by
  rcases parentOf_spec h with ⟨l, hl, _, hp⟩
  simp only [parentCands, List.mem_filterMap]
  exact ⟨l, hl, hp⟩

/-- Decrease lemma for the insertion loops: enlarging the included set by an
element of the candidate universe strictly shrinks the not-yet-included
candidates. -/
theorem filter_notMem_length_lt {l s s2 : List DiskNode}
    (hsub : ∀ c, c ∈ s → c ∈ s2) (x : DiskNode)
    (hxl : x ∈ l) (hxs : x ∉ s) (hxs2 : x ∈ s2) :
    (l.filter (fun c => decide (c ∉ s2))).length <
      (l.filter (fun c => decide (c ∉ s))).length := by
  have hsb : (l.filter (fun c => decide (c ∉ s2))).Sublist
      (l.filter (fun c => decide (c ∉ s))) := by
    apply List.monotone_filter_right
    intro c hc
    simp only [decide_eq_true_eq] at hc ⊢
    intro hcs
    exact hc (hsub c hcs)
  rcases Nat.lt_or_ge (l.filter (fun c => decide (c ∉ s2))).length
      (l.filter (fun c => decide (c ∉ s))).length with h | h
  · exact h
  · exfalso
    have heq := hsb.eq_of_length (Nat.le_antisymm hsb.length_le h)
    have hx1 : x ∈ l.filter (fun c => decide (c ∉ s)) := by
      simp only [List.mem_filter, decide_eq_true_eq]
      exact ⟨hxl, hxs⟩
    rw [← heq] at hx1
    simp only [List.mem_filter, decide_eq_true_eq] at hx1
    exact hx1.2 hxs2

/-- The `while parent:` ancestor walk of `filter_layout`: follow
`parent_map` upward, stop at `None` or at an already-included node, adding
every ancestor passed.  Terminates because every step adds a new member of
`parentCands`. -/
def ancWalk (L : List NodeRect) (cur : Option DiskNode)
    (hcur : ∀ q, cur = some q → q ∈ parentCands L) (s : List DiskNode) :
    List DiskNode :=
  match cur with
  | none => s
  | some q =>
    if hmem : q ∈ s then s
    else
      ancWalk L (parentOf L q) (fun r hr => parentOf_mem_cands L q r hr) (s ++ [q])
termination_by ((parentCands L).filter (fun c => decide (c ∉ s))).length
decreasing_by
  exact filter_notMem_length_lt (fun c hc => List.mem_append_left _ hc) q
    (hcur q rfl) hmem (by simp)

/-- A node of the layout whose lowercased full path contains the lowercased
query (the base matches of the search closure). -/
def IsMatch (L : List NodeRect) (nq : List Char) (nd : DiskNode) : Prop :=
  nd ∈ nodesOf L ∧ hasSub (strLower nd.path) nq = true

/-- Proper-ancestor relation of the layout: `AncUp L y a` holds when `a` is
reached from `y` by one or more `parent_map` steps. -/
inductive AncUp (L : List NodeRect) : DiskNode → DiskNode → Prop where
  | step (y p : DiskNode) : parentOf L y = some p → AncUp L y p
  | more (y z p : DiskNode) : parentOf L y = some z → AncUp L z p → AncUp L y p

/-- The search closure of the spec, as a least fixed point: every match is
included; every ancestor of a match is included; and, to a fixed point,
every in-layout child of an included *directory* is included (so a
newly-included directory's own descendants are included too). -/
inductive InClosure (L : List NodeRect) (nq : List Char) : DiskNode → Prop where
  | ofMatch (nd : DiskNode) : IsMatch L nq nd → InClosure L nq nd
  | ofAnc (mnode a : DiskNode) : IsMatch L nq mnode → AncUp L mnode a →
      InClosure L nq a
  | ofDesc (nd pnode : DiskNode) : InClosure L nq pnode → pnode.is_dir = true →
      parentOf L nd = some pnode → nd ∈ nodesOf L → InClosure L nq nd

theorem ancWalk_mono (L : List NodeRect) (cur : Option DiskNode)
    (hcur : ∀ q, cur = some q → q ∈ parentCands L) (s : List DiskNode) :
    ∀ x ∈ s, x ∈ ancWalk L cur hcur s := by
  induction cur, hcur, s using ancWalk.induct L with
  | case1 s hcur =>
    intro x hx
    rw [ancWalk]
    exact hx
  | case2 s q hcur hmem =>
    intro x hx
    rw [ancWalk]
    simp only [hmem, dite_true]
    exact hx
  | case3 s q hcur hmem hq ih =>
    intro x hx
    rw [ancWalk]
    simp only [hmem, dite_false]
    exact ih x (List.mem_append_left _ hx)

theorem ancWalk_cur (L : List NodeRect) (cur : Option DiskNode)
    (hcur : ∀ q, cur = some q → q ∈ parentCands L) (s : List DiskNode) :
    ∀ q', cur = some q' → q' ∈ ancWalk L cur hcur s := by
  induction cur, hcur, s using ancWalk.induct L with
  | case1 s hcur =>
    intro q' hq'
    exact absurd hq' (by simp)
  | case2 s q hcur hmem =>
    intro q' hq'
    rw [ancWalk]
    simp only [hmem, dite_true]
    have hqq : q = q' := by simpa using hq'
    subst hqq
    exact hmem
  | case3 s q hcur hmem hq ih =>
    intro q' hq'
    rw [ancWalk]
    simp only [hmem, dite_false]
    have : q' = q := by simpa using hq'.symm
    subst this
    exact ancWalk_mono L _ _ _ q' (by simp)

/-- One chained `parent_map` step appended to an ancestor chain. -/
theorem ancUp_snoc {L : List NodeRect} {y q r : DiskNode}
    (h : AncUp L y q) (hr : parentOf L q = some r) : AncUp L y r := by
  induction h with
  | step y p hp => exact AncUp.more _ _ _ hp (AncUp.step _ _ hr)
  | more y z p hz _ ih => exact AncUp.more _ _ _ hz (ih hr)

theorem ancWalk_sound (L : List NodeRect) (cur : Option DiskNode)
    (hcur : ∀ q, cur = some q → q ∈ parentCands L) (s : List DiskNode) :
    ∀ (y : DiskNode), (∀ q', cur = some q' → AncUp L y q') →
      ∀ x ∈ ancWalk L cur hcur s, x ∈ s ∨ AncUp L y x := by
  induction cur, hcur, s using ancWalk.induct L with
  | case1 s hcur =>
    intro y hy x hx
    rw [ancWalk] at hx
    exact Or.inl hx
  | case2 s q hcur hmem =>
    intro y hy x hx
    rw [ancWalk] at hx
    simp only [hmem, dite_true] at hx
    exact Or.inl hx
  | case3 s q hcur hmem hq ih =>
    intro y hy x hx
    rw [ancWalk] at hx
    simp only [hmem, dite_false] at hx
    have hyq : AncUp L y q := hy q rfl
    have := ih y (fun r hr => ancUp_snoc hyq hr) x hx
    rcases this with hxs | hxa
    · rcases List.mem_append.mp hxs with hxs | hxq
      · exact Or.inl hxs
      · have : x = q := by simpa using hxq
        subst this
        exact Or.inr hyq
    · exact Or.inr hxa

theorem ancWalk_parent_closed (L : List NodeRect) (cur : Option DiskNode)
    (hcur : ∀ q, cur = some q → q ∈ parentCands L) (s : List DiskNode) :
    ∀ x ∈ ancWalk L cur hcur s, x ∉ s →
      ∀ p, parentOf L x = some p → p ∈ ancWalk L cur hcur s := by
  induction cur, hcur, s using ancWalk.induct L with
  | case1 s hcur =>
    intro x hx hxs
    rw [ancWalk] at hx
    exact absurd hx hxs
  | case2 s q hcur hmem =>
    intro x hx hxs
    rw [ancWalk] at hx
    simp only [hmem, dite_true] at hx
    exact absurd hx hxs
  | case3 s q hcur hmem hq ih =>
    intro x hx hxs p hp
    rw [ancWalk] at hx ⊢
    simp only [hmem, dite_false] at hx ⊢
    by_cases hxq : x ∈ s ++ [q]
    · have : x = q := by
        rcases List.mem_append.mp hxq with h | h
        · exact absurd h hxs
        · simpa using h
      subst this
      exact ancWalk_cur L _ _ _ p hp
    · exact ih x hx hxq p hp

/-- One step of the `matching_nodes` set comprehension: insert the layout
node when its lowercased path contains the query and it is not yet in
(set semantics under the dataclass equality; at runtime the comprehension
at treemap.py line 215 is never reached, since building `parent_map` on
the line before it already raises `TypeError` — see `filter_layout_exec`). -/
def matchStep (nq : List Char) (s : List DiskNode) (l : NodeRect) : List DiskNode :=
  if hasSub (strLower l.node.path) nq = true ∧ l.node ∉ s then s ++ [l.node] else s

/-- The set `matching_nodes` before the closure loops. -/
def matchSet (L : List NodeRect) (nq : List Char) : List DiskNode :=
  L.foldl (matchStep nq) []

theorem mem_foldl_matchStep (nq : List Char) :
    ∀ (L' : List NodeRect) (s : List DiskNode) (x : DiskNode),
      x ∈ L'.foldl (matchStep nq) s ↔
        x ∈ s ∨ ∃ l ∈ L', l.node = x ∧ hasSub (strLower l.node.path) nq = true := by
  intro L'
  induction L' with
  | nil => intro s x; simp
  | cons l L'' ih =>
    intro s x
    rw [List.foldl_cons, ih]
    constructor
    · rintro (hx | ⟨l0, hl0, he, hm⟩)
      · simp only [matchStep] at hx
        by_cases hc : hasSub (strLower l.node.path) nq = true ∧ l.node ∉ s
        · rw [if_pos hc] at hx
          rcases List.mem_append.mp hx with hx | hx
          · exact Or.inl hx
          · refine Or.inr ⟨l, by simp, ?_, hc.1⟩
            have : x = l.node := by simpa using hx
            exact this.symm
        · rw [if_neg hc] at hx
          exact Or.inl hx
      · exact Or.inr ⟨l0, by simp [hl0], he, hm⟩
    · rintro (hx | ⟨l0, hl0, he, hm⟩)
      · left
        simp only [matchStep]
        by_cases hc : hasSub (strLower l.node.path) nq = true ∧ l.node ∉ s
        · rw [if_pos hc]
          exact List.mem_append_left _ hx
        · rw [if_neg hc]
          exact hx
      · rcases List.mem_cons.mp hl0 with rfl | hl0
        · subst he
          by_cases hns : l0.node ∈ s
          · left
            simp only [matchStep]
            by_cases hc : hasSub (strLower l0.node.path) nq = true ∧ l0.node ∉ s
            · rw [if_pos hc]
              exact List.mem_append_left _ hns
            · rw [if_neg hc]
              exact hns
          · left
            simp only [matchStep]
            rw [if_pos ⟨hm, hns⟩]
            simp
        · exact Or.inr ⟨l0, hl0, he, hm⟩

theorem mem_matchSet {L : List NodeRect} {nq : List Char} {x : DiskNode} :
    x ∈ matchSet L nq ↔ IsMatch L nq x := by
  rw [matchSet, mem_foldl_matchStep]
  simp only [List.not_mem_nil, false_or, IsMatch, nodesOf, List.mem_map]
  constructor
  · rintro ⟨l, hl, rfl, hm⟩
    exact ⟨⟨l, hl, rfl⟩, hm⟩
  · rintro ⟨⟨l, hl, rfl⟩, hm⟩
    exact ⟨l, hl, rfl, hm⟩

/-- The `for node in list(matching_nodes):` loop of `filter_layout`: walk
each seed's ancestors into the set. -/
def addAnc (L : List NodeRect) (seeds s : List DiskNode) : List DiskNode :=
  seeds.foldl
    (fun s y => ancWalk L (parentOf L y) (fun r hr => parentOf_mem_cands L y r hr) s) s

theorem addAnc_mono (L : List NodeRect) :
    ∀ (seeds s : List DiskNode) (x : DiskNode), x ∈ s → x ∈ addAnc L seeds s := by
  intro seeds
  induction seeds with
  | nil => intro s x hx; exact hx
  | cons y seeds' ih =>
    intro s x hx
    exact ih _ x (ancWalk_mono L _ _ s x hx)

theorem addAnc_sound (L : List NodeRect) (nq : List Char) :
    ∀ (seeds s : List DiskNode),
      (∀ y ∈ seeds, IsMatch L nq y) →
      (∀ x ∈ s, InClosure L nq x) →
      ∀ x ∈ addAnc L seeds s, InClosure L nq x := by
  intro seeds
  induction seeds with
  | nil => intro s _ hs x hx; exact hs x hx
  | cons y seeds' ih =>
    intro s hseeds hs x hx
    refine ih _ (fun z hz => hseeds z (by simp [hz])) ?_ x hx
    intro z hz
    have := ancWalk_sound L (parentOf L y) _ s y
      (fun q' hq' => AncUp.step y q' hq') z hz
    rcases this with hzs | hza
    · exact hs z hzs
    · exact InClosure.ofAnc y z (hseeds y (by simp)) hza

theorem addAnc_parent_closed (L : List NodeRect) :
    ∀ (seeds s : List DiskNode),
      (∀ x ∈ s, (∀ p, parentOf L x = some p → p ∈ s) ∨ x ∈ seeds) →
      ∀ x ∈ addAnc L seeds s, ∀ p, parentOf L x = some p → p ∈ addAnc L seeds s := by
  intro seeds
  induction seeds with
  | nil =>
    intro s hinv x hx p hp
    rcases hinv x hx with hcl | hmem
    · exact hcl p hp
    · simp at hmem
  | cons y seeds' ih =>
    intro s hinv
    refine ih _ ?_
    intro x hx
    by_cases hxs : x ∈ s
    · rcases hinv x hxs with hcl | hmem
      · left
        intro p hp
        exact ancWalk_mono L _ _ _ p (hcl p hp)
      · rcases List.mem_cons.mp hmem with rfl | hmem'
        · left
          intro p hp
          exact ancWalk_cur L (parentOf L x) _ s p hp
        · right
          exact hmem'
    · left
      intro p hp
      exact ancWalk_parent_closed L _ _ s x hx hxs p hp

theorem ancUp_mem_of_closed {L : List NodeRect} {s : List DiskNode}
    (hpc : ∀ x ∈ s, ∀ p, parentOf L x = some p → p ∈ s) :
    ∀ {y a : DiskNode}, AncUp L y a → y ∈ s → a ∈ s := by
  intro y a h
  induction h with
  | step y p hp => intro hy; exact hpc y hy p hp
  | more y z p hz _ ih => intro hy; exact ih (hpc y hy z hz)

/-- One step of the descendant fixpoint pass: include a layout node whose
parent is already included. -/
def passStep (L : List NodeRect) (s : List DiskNode) (l : NodeRect) : List DiskNode :=
  match parentOf L l.node with
  | some p => if p ∈ s ∧ l.node ∉ s then s ++ [l.node] else s
  | none => s

/-- One full pass of the `while added:` loop over the layout. -/
def descendPass (L : List NodeRect) (s : List DiskNode) : List DiskNode :=
  L.foldl (passStep L) s

theorem foldl_passStep_spec (L : List NodeRect) :
    ∀ (L' : List NodeRect) (s : List DiskNode),
      ∃ t, L'.foldl (passStep L) s = s ++ t ∧
        ∀ x ∈ t, (∃ l ∈ L', l.node = x) ∧ x ∉ s := by
  intro L'
  induction L' with
  | nil => intro s; exact ⟨[], by simp, by simp⟩
  | cons l L'' ih =>
    intro s
    rw [List.foldl_cons]
    have hstep : passStep L s l = s ∨
        (passStep L s l = s ++ [l.node] ∧ l.node ∉ s) := by
      rcases hpar : parentOf L l.node with _ | p
      · left
        simp [passStep, hpar]
      · by_cases hc : p ∈ s ∧ l.node ∉ s
        · refine Or.inr ⟨?_, hc.2⟩
          simp [passStep, hpar, hc]
        · left
          simp only [passStep, hpar]
          rw [if_neg hc]
    rcases hstep with h0 | ⟨h0, hn0⟩
    · rw [h0]
      rcases ih s with ⟨t1, ht1, ht1p⟩
      refine ⟨t1, ht1, ?_⟩
      intro x hx
      rcases ht1p x hx with ⟨⟨l0, hl0, he0⟩, hns⟩
      exact ⟨⟨l0, by simp [hl0], he0⟩, hns⟩
    · rw [h0]
      rcases ih (s ++ [l.node]) with ⟨t1, ht1, ht1p⟩
      refine ⟨l.node :: t1, by simpa using ht1, ?_⟩
      intro x hx
      rcases List.mem_cons.mp hx with rfl | hx
      · exact ⟨⟨l, by simp⟩, hn0⟩
      · rcases ht1p x hx with ⟨⟨l0, hl0, he0⟩, hns⟩
        refine ⟨⟨l0, by simp [hl0], he0⟩, ?_⟩
        intro hxs
        exact hns (List.mem_append_left _ hxs)

theorem descendPass_spec (L : List NodeRect) (s : List DiskNode) :
    ∃ t, descendPass L s = s ++ t ∧
      ∀ x ∈ t, x ∈ nodesOf L ∧ x ∉ s := by
  rcases foldl_passStep_spec L L s with ⟨t, ht, htp⟩
  refine ⟨t, ht, ?_⟩
  intro x hx
  rcases htp x hx with ⟨⟨l, hl, he⟩, hns⟩
  exact ⟨by simp [nodesOf, List.mem_map]; exact ⟨l, hl, he⟩, hns⟩

/-- The `while added:` fixpoint loop. -/
def descendLoop (L : List NodeRect) (s : List DiskNode) : List DiskNode :=
  let s2 := descendPass L s
  if s2 = s then s else descendLoop L s2
termination_by ((nodesOf L).filter (fun c => decide (c ∉ s))).length
decreasing_by
  rename_i hne
  rcases descendPass_spec L s with ⟨t, ht, htp⟩
  rcases t with _ | ⟨x, t'⟩
  · exact absurd (show descendPass L s = s by simpa using ht) hne
  · refine filter_notMem_length_lt (fun c hc => by rw [ht]; exact List.mem_append_left _ hc)
      x (htp x (by simp)).1 (htp x (by simp)).2 ?_
    rw [ht]
    simp

theorem descendLoop_eq (L : List NodeRect) (s : List DiskNode) :
    descendLoop L s =
      if descendPass L s = s then s else descendLoop L (descendPass L s) := by
  rw [descendLoop]

theorem descendLoop_mono (L : List NodeRect) :
    ∀ (s : List DiskNode) (x : DiskNode), x ∈ s → x ∈ descendLoop L s := by
  intro s
  induction s using descendLoop.induct L with
  | case1 s s2 heq =>
    have heq2 : descendPass L s = s := heq
    intro x hx
    rw [descendLoop_eq, if_pos heq2]
    exact hx
  | case2 s s2 heq ih =>
    have heq2 : ¬ descendPass L s = s := heq
    have ih2 : ∀ x ∈ descendPass L s, x ∈ descendLoop L (descendPass L s) := ih
    intro x hx
    rw [descendLoop_eq, if_neg heq2]
    refine ih2 x ?_
    rcases descendPass_spec L s with ⟨t, ht, _⟩
    rw [ht]
    exact List.mem_append_left _ hx

theorem descendLoop_fixpoint (L : List NodeRect) :
    ∀ (s : List DiskNode), descendPass L (descendLoop L s) = descendLoop L s := by
  intro s
  induction s using descendLoop.induct L with
  | case1 s s2 heq =>
    have heq2 : descendPass L s = s := heq
    rw [descendLoop_eq, if_pos heq2]
    exact heq2
  | case2 s s2 heq ih =>
    have heq2 : ¬ descendPass L s = s := heq
    have ih2 : descendPass L (descendLoop L (descendPass L s)) =
        descendLoop L (descendPass L s) := ih
    rw [descendLoop_eq, if_neg heq2]
    exact ih2

theorem passStep_cases (L : List NodeRect) (s : List DiskNode) (l : NodeRect) :
    passStep L s l = s ∨
      (passStep L s l = s ++ [l.node] ∧ l.node ∉ s ∧
        ∃ p, parentOf L l.node = some p ∧ p ∈ s) := by
  rcases hpar : parentOf L l.node with _ | p
  · left
    simp [passStep, hpar]
  · by_cases hc : p ∈ s ∧ l.node ∉ s
    · right
      refine ⟨?_, hc.2, p, rfl, hc.1⟩
      simp [passStep, hpar, hc]
    · left
      simp only [passStep, hpar]
      rw [if_neg hc]

theorem descendPass_sound (L : List NodeRect) (nq : List Char)
    (hdir : ∀ nd p, parentOf L nd = some p → p.is_dir = true) :
    ∀ (Lp : List NodeRect) (s : List DiskNode), (∀ l ∈ Lp, l ∈ L) →
      (∀ x ∈ s, InClosure L nq x) →
      ∀ x ∈ Lp.foldl (passStep L) s, InClosure L nq x := by
  intro Lp
  induction Lp with
  | nil => intro s _ hs x hx; exact hs x hx
  | cons l Lrest ih =>
    intro s hsub hs x hx
    rw [List.foldl_cons] at hx
    refine ih (passStep L s l) (fun l0 hl0 => hsub l0 (by simp [hl0])) ?_ x hx
    intro z hz
    rcases passStep_cases L s l with h0 | ⟨h0, hn, p, hpar, hps⟩
    · rw [h0] at hz
      exact hs z hz
    · rw [h0] at hz
      rcases List.mem_append.mp hz with hzs | hznew
      · exact hs z hzs
      · have hzl : z = l.node := by simpa using hznew
        subst hzl
        refine InClosure.ofDesc l.node p (hs p hps) (hdir l.node p hpar) hpar ?_
        simp only [nodesOf, List.mem_map]
        exact ⟨l, hsub l (by simp), rfl⟩

theorem descendLoop_sound (L : List NodeRect) (nq : List Char)
    (hdir : ∀ nd p, parentOf L nd = some p → p.is_dir = true) :
    ∀ (s : List DiskNode), (∀ x ∈ s, InClosure L nq x) →
      ∀ x ∈ descendLoop L s, InClosure L nq x := by
  intro s
  induction s using descendLoop.induct L with
  | case1 s s2 heq =>
    have heq2 : descendPass L s = s := heq
    intro hs x hx
    rw [descendLoop_eq, if_pos heq2] at hx
    exact hs x hx
  | case2 s s2 heq ih =>
    have heq2 : ¬ descendPass L s = s := heq
    have ih2 : (∀ x ∈ descendPass L s, InClosure L nq x) →
        ∀ x ∈ descendLoop L (descendPass L s), InClosure L nq x := ih
    intro hs x hx
    rw [descendLoop_eq, if_neg heq2] at hx
    refine ih2 ?_ x hx
    intro z hz
    exact descendPass_sound L nq hdir L s (fun _ h => h) hs z hz

theorem foldl_passStep_fix_closed (L : List NodeRect) :
    ∀ (Lp : List NodeRect) (s : List DiskNode),
      Lp.foldl (passStep L) s = s →
      ∀ l ∈ Lp, ∀ p, parentOf L l.node = some p → p ∈ s → l.node ∈ s := by
  intro Lp
  induction Lp with
  | nil => intro s _ l hl; simp at hl
  | cons l0 Lrest ih =>
    intro s hfix l hl p hp hps
    rw [List.foldl_cons] at hfix
    have hstep : passStep L s l0 = s := by
      rcases foldl_passStep_spec L Lrest (passStep L s l0) with ⟨t, ht, _⟩
      rw [ht] at hfix
      rcases passStep_cases L s l0 with h0 | ⟨h0, _, _⟩
      · exact h0
      · exfalso
        rw [h0] at hfix
        have hlen := congrArg List.length hfix
        simp at hlen
    have hfixrest : Lrest.foldl (passStep L) s = s := by
      rw [hstep] at hfix
      exact hfix
    rcases List.mem_cons.mp hl with rfl | hlrest
    · by_contra hn
      have hps2 : passStep L s l = s ++ [l.node] := by
        simp [passStep, hp, hps, hn]
      rw [hps2] at hstep
      have hlen := congrArg List.length hstep
      simp at hlen
    · exact ih s hfixrest l hlrest p hp hps

/-- The algorithm written in `filter_layout`'s body, under the dict/set
semantics it assumes (see the section comment — at runtime the non-empty
query branch instead raises `TypeError`, modelled by
`filter_layout_exec`): empty query returns the layout unchanged; otherwise
build the matching set, close it under ancestors of matches and (to a
fixed point) children of included nodes, and keep the layout entries whose
node is included, in layout order. -/
def filter_layout (L : List NodeRect) (query : String) : List NodeRect :=
  if query = "" then L
  else
    let nq := strLower query
    let matching0 := matchSet L nq
    let matching1 := addAnc L matching0 matching0
    let matching2 := descendLoop L matching1
    L.filter (fun l => decide (l.node ∈ matching2))

/-- The runtime error relevant here: Python's `TypeError`, raised when an
unhashable object is used as a dict key or set element. -/
inductive PyError where
  | typeError
deriving DecidableEq

/-- Whether a `DiskNode` can be hashed: `@dataclass` with the default
`eq = True` and `frozen = False` (model.py line 10) sets `__hash__ = None`,
so the answer is no. -/
def diskNodeHashable : Bool := false

/-- What consuming the `filter_layout` generator actually produces at
runtime.  The empty query yields the input before touching any dict
(treemap.py lines 209-211).  Any other query first builds
`parent_map = ... for layout in layouts` (line 214), hashing one `DiskNode`
key per layout entry: on a non-empty layout the first insertion raises
`TypeError` because `diskNodeHashable = false`; on an empty layout nothing
is hashed and the remaining loops yield nothing, which coincides with
`filter_layout L query`.  Were `DiskNode` hashable (consistently with its
structural `__eq__`), the body would compute `filter_layout L query`. -/
def filter_layout_exec (L : List NodeRect) (query : String) :
    Except PyError (List NodeRect) :=
  if query = "" then .ok L
  else if L.isEmpty || diskNodeHashable then .ok (filter_layout L query)
  else .error .typeError

/-- The imperative two-stage closure computes exactly the declarative search
closure `InClosure`, provided every recorded parent is a directory. -/
theorem filter_closure_set (L : List NodeRect) (nq : List Char)
    (hdir : ∀ nd p, parentOf L nd = some p → p.is_dir = true) (x : DiskNode) :
    x ∈ descendLoop L (addAnc L (matchSet L nq) (matchSet L nq)) ↔
      InClosure L nq x := by
  constructor
  · intro hx
    refine descendLoop_sound L nq hdir _ ?_ x hx
    intro z hz
    refine addAnc_sound L nq _ _ (fun y hy => mem_matchSet.mp hy) ?_ z hz
    intro w hw
    exact InClosure.ofMatch w (mem_matchSet.mp hw)
  · intro hx
    induction hx with
    | ofMatch nd hm =>
      exact descendLoop_mono L _ nd (addAnc_mono L _ _ nd (mem_matchSet.mpr hm))
    | ofAnc mnode a hm ha =>
      have hpc := addAnc_parent_closed L (matchSet L nq) (matchSet L nq)
        (fun x hx => Or.inr hx)
      have hm1 : mnode ∈ addAnc L (matchSet L nq) (matchSet L nq) :=
        addAnc_mono L _ _ mnode (mem_matchSet.mpr hm)
      have ha1 : a ∈ addAnc L (matchSet L nq) (matchSet L nq) :=
        ancUp_mem_of_closed hpc ha hm1
      exact descendLoop_mono L _ a ha1
    | ofDesc nd pnode hp hdirp hpar hnd ih =>
      have hex : ∃ l ∈ L, l.node = nd := by
        simpa [nodesOf, List.mem_map] using hnd
      rcases hex with ⟨l, hl, hle⟩
      have hfix := descendLoop_fixpoint L (addAnc L (matchSet L nq) (matchSet L nq))
      have hres := foldl_passStep_fix_closed L L _ hfix l hl pnode
        (by rw [hle]; exact hpar) ih
      rw [hle] at hres
      exact hres

theorem iter_all_trans {x c n : DiskNode} (hc : c ∈ n.children)
    (hx : x ∈ c.iter_all) : x ∈ n.iter_all :=
  mem_iter_all_iff.mpr (Or.inr ⟨c, hc, hx⟩)

theorem mem_squarify_children_fst {pr : DiskNode × Rect} {children : List DiskNode}
    {bounds : Rect} (h : pr ∈ squarify_children children bounds) : pr.1 ∈ children := by
  match pr with
  | (c, r) => exact mem_squarify_children h

/-- Every non-root parent reference in a `slice_and_dice` layout points at a
node of the tree that was recursed into, i.e. one with nonempty children. -/
theorem slice_and_dice_parent_shape :
    ∀ (k : Nat) (n : DiskNode), sizeOf n ≤ k →
      ∀ (b : Rect) (d : Nat) (p : Option DiskNode) (m : Option Nat) (nr : NodeRect),
        nr ∈ slice_and_dice n b d p m →
        nr.parent = p ∨
          ∃ qn, nr.parent = some qn ∧ qn ∈ n.iter_all ∧ qn.children ≠ [] := by
  intro k
  induction k with
  | zero =>
    intro n hn
    exact absurd hn (by have := sizeOf_DiskNode_pos n; omega)
  | succ k ih =>
    intro n hn b d p m nr hnr
    rw [slice_and_dice.eq_def] at hnr
    by_cases hs : sadStop n d m
    · rw [if_pos hs] at hnr
      have : nr = ⟨n, b, d, p⟩ := by simpa using hnr
      subst this
      left
      rfl
    · rw [if_neg hs] at hnr
      rcases List.mem_cons.mp hnr with rfl | hmem
      · left
        rfl
      · simp only [List.mem_flatten, List.mem_map, List.mem_attach, true_and] at hmem
        rcases hmem with ⟨sub, ⟨cr, rfl⟩, hnr2⟩
        have hcm : cr.1.1 ∈ n.children := mem_squarify_children_fst cr.2
        have hlt : sizeOf cr.1.1 < sizeOf n := sizeOf_mem_children hcm
        rcases ih cr.1.1 (by omega) cr.1.2 (d + 1) (some n) m nr hnr2 with
          hp | ⟨qn, hq1, hq2, hq3⟩
        · right
          refine ⟨n, hp, self_mem_iter_all n, ?_⟩
          intro hnil
          apply hs
          simp [sadStop, hnil]
        · right
          exact ⟨qn, hq1, iter_all_trans hcm hq2, hq3⟩

/-- In a layout of a tree in which only directories have children (the
builder invariant), every `parent_map` value is a directory. -/
theorem slice_and_dice_hdir (t : DiskNode) (b : Rect) (m : Option Nat)
    (hg : ∀ x ∈ t.iter_all, x.children ≠ [] → x.is_dir = true) :
    ∀ nd p, parentOf (slice_and_dice t b 0 none m) nd = some p →
      p.is_dir = true := by
  intro nd p hp
  rcases parentOf_spec hp with ⟨l, hl, _, hpar⟩
  rcases slice_and_dice_parent_shape (sizeOf t) t le_rfl b 0 none m l hl with
    h0 | ⟨qn, hq1, hq2, hq3⟩
  · rw [h0] at hpar
    exact absurd hpar (by simp)
  · rw [hq1] at hpar
    have : qn = p := by simpa using hpar
    subst this
    exact hg qn hq2 hq3

/-- The algorithm written in `filter_layout`'s body (the behavior the code
intends, and would exhibit were `DiskNode` hashable): on every layout
produced by the layout engine over a tree whose non-leaf nodes are
directories, the empty query returns the input unchanged, and otherwise
the result is exactly the layout entries whose node lies in the search
closure — matches (path contains the case-insensitive query), ancestors of
matches, and, to a fixed point, in-layout children of included
directories — as an order-preserving subsequence.  At runtime the
non-empty-query branch is unreachable: see `filter_layout_run_type_error`. -/
theorem filter_layout_search_closure (t : DiskNode) (b : Rect) (m : Option Nat)
    (q : String)
    (hg : ∀ x ∈ t.iter_all, x.children ≠ [] → x.is_dir = true) :
    (filter_layout (slice_and_dice t b 0 none m) "" = slice_and_dice t b 0 none m) ∧
    (q ≠ "" →
      (filter_layout (slice_and_dice t b 0 none m) q).Sublist
          (slice_and_dice t b 0 none m) ∧
      (∀ nr, nr ∈ filter_layout (slice_and_dice t b 0 none m) q ↔
        nr ∈ slice_and_dice t b 0 none m ∧
          InClosure (slice_and_dice t b 0 none m) (strLower q) nr.node)) := by
  constructor
  · simp [filter_layout]
  · intro hq
    have hdir := slice_and_dice_hdir t b m hg
    constructor
    · rw [filter_layout, if_neg hq]
      exact List.filter_sublist _
    · intro nr
      rw [filter_layout, if_neg hq]
      simp only [List.mem_filter, decide_eq_true_eq]
      constructor
      · rintro ⟨h1, h2⟩
        exact ⟨h1, (filter_closure_set _ _ hdir nr.node).mp h2⟩
      · rintro ⟨h1, h2⟩
        exact ⟨h1, (filter_closure_set _ _ hdir nr.node).mpr h2⟩

def tEx1 : DiskNode :=
  .mk "r" 2 true 0 [.mk "r/x" 1 false 0 [], .mk "r/y" 1 false 0 []]

theorem filter_layout_search_closure_witness :
    (filter_layout (slice_and_dice tEx1 (Rect.mk 0 0 100 100) 0 none none) "x").Sublist
      (slice_and_dice tEx1 (Rect.mk 0 0 100 100) 0 none none) :=
  ((filter_layout_search_closure tEx1 (Rect.mk 0 0 100 100) none "x"
    (by decide)).2 (by decide)).1

/-- A layout always contains at least the entry of the laid-out node
itself, so it is never empty. -/
theorem slice_and_dice_not_empty (n : DiskNode) (b : Rect) (d : Nat)
    (p : Option DiskNode) (m : Option Nat) :
    (slice_and_dice n b d p m).isEmpty = false := by
  rw [slice_and_dice.eq_def]
  by_cases hs : sadStop n d m
  · rw [if_pos hs]
    rfl
  · rw [if_neg hs]
    rfl

/-- Claim C1, code bug: the claimed closure behavior of `filterByQuery` is
the documented intent (docstring of `filter_layout` and spec section 4.4,
proved of the body's algorithm in `filter_layout_search_closure`), but the
code cannot exhibit it: `DiskNode` is a mutable `@dataclass` with
`eq = True` and `frozen = False`, hence `__hash__ = None`, so for every
non-empty query consuming `filter_layout` on a layout — which always
contains at least the root entry — raises `TypeError: unhashable type`
while building `parent_map` (treemap.py line 214), instead of returning
the closure-restricted subsequence.  Only the empty-query branch behaves
as specified. -/
theorem filter_layout_run_type_error (t : DiskNode) (b : Rect) (m : Option Nat)
    (q : String) (hq : q ≠ "") :
    filter_layout_exec (slice_and_dice t b 0 none m) q = .error .typeError ∧
    filter_layout_exec (slice_and_dice t b 0 none m) "" =
      .ok (slice_and_dice t b 0 none m) := by
  constructor
  · rw [filter_layout_exec, if_neg hq, slice_and_dice_not_empty]
    simp [diskNodeHashable]
  · simp [filter_layout_exec]

theorem filter_layout_run_type_error_witness :
    filter_layout_exec (slice_and_dice tEx1 (Rect.mk 0 0 100 100) 0 none none) "x" =
      .error .typeError :=
  (filter_layout_run_type_error tEx1 (Rect.mk 0 0 100 100) none "x" (by decide)).1
